import Mathlib

/-!
Verification of the step-engine of the Sorting-Visualizer repository.

The C++ source keeps a `SortState` with the live array `bars`, a parallel
annotation array `colorMap` (0 default, 1 comparing, 2 swapping, 3 sorted),
two counters `comparisons` and `swaps`, and a pre-generated list of steps
(closures).  Each builder (`buildBubble`, `buildSelection`, `buildInsertion`,
`buildMerge`, `buildQuick`, `buildHeap`) materializes the full step list; the
main loop then executes a speed-dependent number of steps per frame.

This file embeds that engine shallowly: a step becomes a `Step` datum holding
exactly the values the corresponding C++ lambda captured, and `execStep`
interprets it the way the lambda body runs against the live state.
-/

namespace SortViz

/-- The selectable array sizes, `SIZE_OPTIONS` in the source. -/
def SIZE_OPTIONS : List Nat := [25, 50, 75, 100, 150, 200]

/-- Number of selectable array sizes, `SIZE_COUNT` in the source. -/
def SIZE_COUNT : Nat := 6

/-- The six algorithm variants of the `Algorithm` enum. -/
inductive Algorithm where
  | BUBBLE
  | SELECTION
  | INSERTION
  | MERGE
  | QUICK
  | HEAP
deriving DecidableEq, Repr

/-- `std::swap(l[i], l[j])` on a list: both positions are read from the
original list, then written. -/
def swapL (l : List Nat) (i j : Nat) : List Nat :=
  (l.set i (l.getD j 0)).set j (l.getD i 0)

/-- The loops of the form `for (k = a; k < b; k++) cm[k] = v;` painting an
index range of the annotation array. -/
def setRange (cm : List Nat) (a b v : Nat) : List Nat :=
  cm.mapIdx fun k c => if a ≤ k ∧ k < b then v else c

/-- `resetColors` in the source: `std::fill(colorMap.begin(), colorMap.end(), 0)`. -/
def resetColors (cm : List Nat) : List Nat :=
  List.replicate cm.length 0

/-- Model of `std::sort(bars.begin(), bars.end())`: sort ascending. -/
def stdSort (l : List Nat) : List Nat :=
  List.insertionSort (· ≤ ·) l

/-- The live data a step mutates: the `bars`, `colorMap`, `comparisons` and
`swaps` fields of the C++ `SortState`. -/
structure Ds where
  bars : List Nat
  colorMap : List Nat
  comparisons : Nat
  swaps : Nat
deriving DecidableEq, Repr

/-- One pre-generated step.  Every constructor records exactly the values the
corresponding C++ lambda captured at generation time.

* `bubble j i n`     — the compare/swap lambda of `buildBubble`;
* `select i n`       — the scan-and-swap lambda of `buildSelection`;
* `insert i`         — the shift-and-place lambda of `buildInsertion`;
* `merge l m r`      — the range-merge lambda of `buildMerge`;
* `quickPart snap sL sR` — the partition lambda of `buildQuick` (the captured
  `snap` is never read by the lambda body, mirroring the source);
* `heapColor ci cl`  — the annotation-only lambda pushed inside `heapify`;
* `heapSnapBuild snap` — the checkpoint lambda of the heap build phase;
* `heapSnapExtract snap ss n` — the checkpoint after swapping the root out;
* `heapSnapRepair snap si2 n` — the checkpoint after the heap repair;
* `markAll n`        — the final mark-everything-sorted lambda of the four
  data-independent builders;
* `sortAll n`        — the final lambda of `buildQuick` and `buildHeap`, which
  also runs `std::sort` on the live array. -/
inductive Step where
  | bubble (j i n : Nat)
  | select (i n : Nat)
  | insert (i : Nat)
  | merge (l m r : Nat)
  | quickPart (snap : List Nat) (sL sR : Nat)
  | heapColor (ci cl : Nat)
  | heapSnapBuild (snap : List Nat)
  | heapSnapExtract (snap : List Nat) (ss n : Nat)
  | heapSnapRepair (snap : List Nat) (si2 n : Nat)
  | markAll (n : Nat)
  | sortAll (n : Nat)
deriving DecidableEq, Repr

/-- The inner scan of the selection-sort lambda:
`for (j = i + 1; j < n; j++) { comparisons++; cm[j] = 1; if (bars[j] < bars[mi]) ... }`.
Returns the final minimum index together with the updated annotation array and
comparison counter. -/
def selScan (bars : List Nat) (n i : Nat) (j mi : Nat) (cm : List Nat) (cc : Nat) :
    Nat × List Nat × Nat :=
  if j < n then
    let cc := cc + 1
    let cm := cm.set j 1
    if bars.getD j 0 < bars.getD mi 0 then
      let cm := if mi ≠ i then cm.set mi 0 else cm
      let cm := cm.set j 2
      selScan bars n i (j + 1) j cm cc
    else
      selScan bars n i (j + 1) mi cm cc
  else
    (mi, cm, cc)
termination_by n - j

/-- The shifting loop of the insertion-sort lambda.  The C++ index `j` starts
at `i - 1` and may reach `-1`; here `jj` stands for `j + 1`, so the loop guard
`j >= 0 && bars[j] > key` becomes `1 ≤ jj ∧ bars[jj-1] > key` and the write
`bars[j+1] = bars[j]` becomes a write at `jj`.  Returns the updated arrays,
the final `jj` and the updated counters. -/
def insLoop (bars cm : List Nat) (key : Nat) (jj : Nat) (cc ss : Nat) :
    List Nat × List Nat × Nat × Nat × Nat :=
  if 1 ≤ jj ∧ bars.getD (jj - 1) 0 > key then
    insLoop (bars.set jj (bars.getD (jj - 1) 0)) (cm.set jj 1) key (jj - 1) (cc + 1) (ss + 1)
  else
    (bars, cm, jj, cc, ss)
termination_by jj

/-- The two-pointer merge loop of the merge-sort lambda, including the two
flush loops that follow it.  `tmp` is the copied slice, `mm` and `rr` are the
C++ `m - l` and `r - l`.  Returns the written-back values in write order plus
the updated counters. -/
def mergeLoop (tmp : List Nat) (mm rr : Nat) (i2 j2 : Nat) (cc ss : Nat) :
    List Nat × Nat × Nat :=
  if i2 ≤ mm ∧ j2 ≤ rr then
    let cc := cc + 1
    if tmp.getD i2 0 ≤ tmp.getD j2 0 then
      let rest := mergeLoop tmp mm rr (i2 + 1) j2 cc ss
      (tmp.getD i2 0 :: rest.1, rest.2)
    else
      let rest := mergeLoop tmp mm rr i2 (j2 + 1) cc (ss + 1)
      (tmp.getD j2 0 :: rest.1, rest.2)
  else
    ((tmp.drop i2).take (mm + 1 - i2) ++ (tmp.drop j2).take (rr + 1 - j2), cc, ss)
termination_by (mm + 1 - i2) + (rr + 1 - j2)

/-- Sequential writes `bars[k++] = v` starting at position `i`. -/
def writeAt (l : List Nat) (i : Nat) (out : List Nat) : List Nat :=
  l.take i ++ out ++ l.drop (i + out.length)

/-- The partition loop of the quick-sort lambda executed against the live
array.  The C++ index `i3` starts at `sL - 1` and is pre-incremented before
every use; here `i4` stands for `i3 + 1`. -/
def qexecLoop (bars cm : List Nat) (p2 : Nat) (j sR i4 : Nat) (cc ss : Nat) :
    List Nat × List Nat × Nat × Nat × Nat :=
  if j < sR then
    let cc := cc + 1
    let cm := cm.set j 1
    if bars.getD j 0 ≤ p2 then
      qexecLoop (swapL bars i4 j) (cm.set i4 2) p2 (j + 1) sR (i4 + 1) cc (ss + 1)
    else
      qexecLoop bars cm p2 (j + 1) sR i4 cc ss
  else
    (bars, cm, i4, cc, ss)
termination_by sR - j

/-- Execute one step against the live data, exactly as the corresponding C++
lambda body does. -/
def execStep (stp : Step) (d : Ds) : Ds :=
  match stp with
  | .bubble j i n =>
    let cm := resetColors d.colorMap
    let cm := (cm.set j 1).set (j + 1) 1
    let cc := d.comparisons + 1
    if d.bars.getD j 0 > d.bars.getD (j + 1) 0 then
      let bars := swapL d.bars j (j + 1)
      let cm := (cm.set j 2).set (j + 1) 2
      { bars := bars, colorMap := setRange cm (n - i - 1) n 3,
        comparisons := cc, swaps := d.swaps + 1 }
    else
      { bars := d.bars, colorMap := setRange cm (n - i - 1) n 3,
        comparisons := cc, swaps := d.swaps }
  | .select i n =>
    let cm := resetColors d.colorMap
    let cm := cm.set i 2
    let scan := selScan d.bars n i (i + 1) i cm d.comparisons
    let mi := scan.1
    let cm := scan.2.1
    let cc := scan.2.2
    if mi ≠ i then
      { bars := swapL d.bars i mi, colorMap := setRange cm 0 (i + 1) 3,
        comparisons := cc, swaps := d.swaps + 1 }
    else
      { bars := d.bars, colorMap := setRange cm 0 (i + 1) 3,
        comparisons := cc, swaps := d.swaps }
  | .insert i =>
    let key := d.bars.getD i 0
    let cm := resetColors d.colorMap
    let cm := cm.set i 2
    let res := insLoop d.bars cm key i d.comparisons d.swaps
    let bars := res.1
    let cm := res.2.1
    let jj := res.2.2.1
    { bars := bars.set jj key, colorMap := cm.set jj 2,
      comparisons := res.2.2.2.1, swaps := res.2.2.2.2 }
  | .merge l m r =>
    let cm := resetColors d.colorMap
    let tmp := (d.bars.drop l).take (r + 1 - l)
    let res := mergeLoop tmp (m - l) (r - l) 0 (m - l + 1) d.comparisons d.swaps
    { bars := writeAt d.bars l res.1, colorMap := setRange cm l (r + 1) 2,
      comparisons := res.2.1, swaps := res.2.2 }
  | .quickPart _snap sL sR =>
    let cm := resetColors d.colorMap
    let p2 := d.bars.getD sR 0
    let cm := cm.set sR 2
    let res := qexecLoop d.bars cm p2 sL sR sL d.comparisons d.swaps
    let bars := res.1
    let cm := res.2.1
    let i4 := res.2.2.1
    { bars := swapL bars i4 sR, colorMap := cm.set i4 3,
      comparisons := res.2.2.2.1, swaps := res.2.2.2.2 }
  | .heapColor ci cl =>
    let cm := resetColors d.colorMap
    { d with colorMap := (cm.set ci 2).set cl 1 }
  | .heapSnapBuild snap =>
    { d with bars := snap, colorMap := resetColors d.colorMap }
  | .heapSnapExtract snap ss n =>
    let cm := resetColors d.colorMap
    { d with bars := snap, colorMap := setRange (cm.set 0 2) ss n 3 }
  | .heapSnapRepair snap si2 n =>
    { d with bars := snap, colorMap := setRange (resetColors d.colorMap) si2 n 3 }
  | .markAll n =>
    { d with colorMap := setRange d.colorMap 0 n 3 }
  | .sortAll n =>
    { d with bars := stdSort d.bars, colorMap := setRange d.colorMap 0 n 3 }

/-- Execute a list of steps in order. -/
def runList (steps : List Step) (d : Ds) : Ds :=
  steps.foldl (fun d stp => execStep stp d) d

/-! ## Sequence builders -/

/-- `buildBubble`: the two nested counting loops
`for (i = 0; i < n-1; i++) for (j = 0; j < n-1-i; j++)` push one compare/swap
step each, followed by the final mark-all-sorted step. -/
def buildBubble (n : Nat) : List Step :=
  ((List.range (n - 1)).flatMap fun i =>
    (List.range (n - 1 - i)).map fun j => Step.bubble j i n)
  ++ [Step.markAll n]

/-- `buildSelection`: one step per outer index `i`, then the final step. -/
def buildSelection (n : Nat) : List Step :=
  ((List.range (n - 1)).map fun i => Step.select i n) ++ [Step.markAll n]

/-- `buildInsertion`: one step per index `i = 1 .. n-1`, then the final step. -/
def buildInsertion (n : Nat) : List Step :=
  ((List.range' 1 (n - 1)).map fun i => Step.insert i) ++ [Step.markAll n]

/-- The inner loop of `buildMerge`:
`for (i = 0; i < n; i += 2*w)` emits a merge step for each block whose right
half is non-empty (`if (m >= r) continue`). -/
def mergeInner (n w : Nat) (hw : 0 < w) (i : Nat) : List Step :=
  if _h : i < n then
    let l := i
    let m := min (i + w - 1) (n - 1)
    let r := min (i + 2 * w - 1) (n - 1)
    (if r ≤ m then [] else [Step.merge l m r]) ++ mergeInner n w hw (i + 2 * w)
  else []
termination_by n - i
decreasing_by omega

/-- The outer loop of `buildMerge`: widths `w = 1, 2, 4, ...` while `w < n`. -/
def mergePasses (n w : Nat) (hw : 0 < w) : List Step :=
  if h : w < n then mergeInner n w hw 0 ++ mergePasses n (2 * w) (by omega)
  else []
termination_by n - w
decreasing_by omega

/-- `buildMerge`: iterative bottom-up merge sort schedule, then the final step. -/
def buildMerge (n : Nat) : List Step :=
  mergePasses n 1 (by omega) ++ [Step.markAll n]

/-- The partition loop of `buildQuick` run at generation time on the shadow
array `arr`.  As in `qexecLoop`, `i4` stands for the C++ `i2 + 1`. -/
def qgenLoop (arr : List Nat) (pivot : Nat) (j r i4 : Nat) : List Nat × Nat :=
  if j < r then
    if arr.getD j 0 ≤ pivot then qgenLoop (swapL arr i4 j) pivot (j + 1) r (i4 + 1)
    else qgenLoop arr pivot (j + 1) r i4
  else (arr, i4)
termination_by r - j

/-- The work-list loop of `buildQuick`.  Each popped non-trivial range first
pushes one partition step capturing a snapshot of the shadow array, then
partitions the shadow array and pushes the two sub-ranges (right one on top,
matching the C++ `push_back` order).  Returns the emitted steps and the final
shadow array. -/
def quickLoop (arr : List Nat) (work : List (Nat × Nat)) : List Step × List Nat :=
  match work with
  | [] => ([], arr)
  | (l, r) :: rest =>
    if r ≤ l then quickLoop arr rest
    else
      let pivot := arr.getD r 0
      let pr := qgenLoop arr pivot l r l
      let p := pr.2
      let arr2 := swapL pr.1 p r
      let work2 := (if p + 1 < r then [(p + 1, r)] else []) ++
                   (if l + 1 < p then [(l, p - 1)] else []) ++ rest
      let res := quickLoop arr2 work2
      (Step.quickPart arr l r :: res.1, res.2)
termination_by 2 * (work.map fun pr => pr.2 + 1 - pr.1).sum + work.length
decreasing_by
  · simp only [List.map_cons, List.sum_cons, List.length_cons]
    omega
  · have hb : ∀ (arr : List Nat) (pivot j r i4 : Nat),
        i4 ≤ (qgenLoop arr pivot j r i4).2 ∧
          (qgenLoop arr pivot j r i4).2 ≤ i4 + (r - j) := by
      intro arr pivot j r i4
      induction arr, pivot, j, r, i4 using qgenLoop.induct with
      | case1 arr pivot j r i4 hj hle ih =>
        rw [qgenLoop, if_pos hj, if_pos hle]
        omega
      | case2 arr pivot j r i4 hj hle ih =>
        rw [qgenLoop, if_pos hj, if_neg hle]
        omega
      | case3 arr pivot j r i4 hj =>
        rw [qgenLoop, if_neg hj]
        omega
    have hb2 := hb arr (arr.getD r 0) l r l
    split_ifs <;>
      simp only [List.map_append, List.sum_append, List.map_cons, List.sum_cons,
        List.map_nil, List.sum_nil, List.length_append, List.length_cons,
        List.length_nil, List.nil_append, List.cons_append] <;>
      omega

/-- `buildQuick`: run the shadow simulation from the full range, then append
the final sort-and-mark step. -/
def buildQuick (bars : List Nat) (n : Nat) : List Step :=
  (quickLoop bars [(0, n - 1)]).1 ++ [Step.sortAll n]

/-- `heapify`: sift-down on the shadow array.  It increments the comparison
and swap counters at generation time (they are passed by reference in the
source) and pushes one annotation-only step per swap.  Returns the updated
shadow array, the pushed steps, and the updated counters. -/
def heapify (arr : List Nat) (cc ss : Nat) (n i : Nat) : List Nat × List Step × Nat × Nat :=
  let l := 2 * i + 1
  let r := 2 * i + 2
  let cc1 := if l < n then cc + 1 else cc
  let lg1 := if l < n ∧ arr.getD l 0 > arr.getD i 0 then l else i
  let cc2 := if r < n then cc1 + 1 else cc1
  let lg2 := if r < n ∧ arr.getD r 0 > arr.getD lg1 0 then r else lg1
  if hlg : lg2 = i then (arr, [], cc2, ss)
  else
    let res := heapify (swapL arr i lg2) cc2 (ss + 1) n lg2
    (res.1, Step.heapColor i lg2 :: res.2.1, res.2.2)
termination_by n - i
decreasing_by
  simp only [lg2, lg1] at hlg ⊢
  split_ifs at hlg ⊢ <;> omega

/-- One iteration of the heap build phase `for (i = n/2 - 1; i >= 0; i--)`:
run `heapify`, then push a checkpoint snapshot of the shadow array. -/
def heapBuildStep (n : Nat) (st : List Nat × List Step × Nat × Nat) (i : Nat) :
    List Nat × List Step × Nat × Nat :=
  let res := heapify st.1 st.2.2.1 st.2.2.2 n i
  (res.1, st.2.1 ++ res.2.1 ++ [Step.heapSnapBuild res.1], res.2.2)

/-- One iteration of the heap extraction phase `for (i = n - 1; i > 0; i--)`:
swap the root out (counting one swap), push a checkpoint, repair the heap of
size `i`, push another checkpoint. -/
def heapExtractStep (n : Nat) (st : List Nat × List Step × Nat × Nat) (i : Nat) :
    List Nat × List Step × Nat × Nat :=
  let arr1 := swapL st.1 0 i
  let res := heapify arr1 st.2.2.1 (st.2.2.2 + 1) i 0
  (res.1,
   st.2.1 ++ [Step.heapSnapExtract arr1 i n] ++ res.2.1 ++ [Step.heapSnapRepair res.1 i n],
   res.2.2)

/-- `buildHeap`: build phase, extraction phase, final sort-and-mark step.
Returns the steps together with the counter values the generation itself
accumulated. -/
def buildHeap (bars : List Nat) (n : Nat) : List Step × Nat × Nat :=
  let st1 := ((List.range (n / 2)).reverse).foldl (heapBuildStep n) (bars, [], 0, 0)
  let st2 := ((List.range' 1 (n - 1)).reverse).foldl (heapExtractStep n) st1
  (st2.2.1 ++ [Step.sortAll n], st2.2.2)

/-- The step list generated by `buildSteps` for a given algorithm, array and
size, together with the counter values `buildSteps` leaves behind (zero except
for heap sort, whose generation pre-runs the trace). -/
def buildFor (algo : Algorithm) (bars : List Nat) (n : Nat) : List Step × Nat × Nat :=
  match algo with
  | .BUBBLE => (buildBubble n, 0, 0)
  | .SELECTION => (buildSelection n, 0, 0)
  | .INSERTION => (buildInsertion n, 0, 0)
  | .MERGE => (buildMerge n, 0, 0)
  | .QUICK => (buildQuick bars n, 0, 0)
  | .HEAP => buildHeap bars n

/-! ## The controller -/

/-- The full C++ `SortState`: the live data, the chosen algorithm, the
playback flags, speed level, size index, the materialized step list and the
cursor `stepIdx` into it. -/
structure SortState where
  ds : Ds
  algo : Algorithm
  running : Bool
  finished : Bool
  speed : Nat
  sizeIdx : Nat
  steps : List Step
  stepIdx : Nat
deriving DecidableEq, Repr

/-- `barCount()`: `SIZE_OPTIONS[sizeIdx]`. -/
def barCount (s : SortState) : Nat :=
  SIZE_OPTIONS.getD s.sizeIdx 0

/-- `shuffle(s, anim)` with the freshly shuffled permutation passed in
explicitly (the source draws it from a process-wide `std::mt19937`): assign
`newBars`, clear the annotations, stop playback, zero the counters, discard
the step list and reset the cursor.  The cosmetic `AnimState` fields are out
of scope. -/
def shuffleWith (s : SortState) (newBars : List Nat) : SortState :=
  { s with
    ds := { bars := newBars, colorMap := List.replicate (barCount s) 0,
            comparisons := 0, swaps := 0 }
    running := false
    finished := false
    steps := []
    stepIdx := 0 }

/-- `buildSteps`: clear the step list and cursor, zero the counters, reset the
annotations, then dispatch on the algorithm.  For heap sort the generation
itself bumps the counters. -/
def buildSteps (s : SortState) : SortState :=
  let n := barCount s
  let bfr := buildFor s.algo s.ds.bars n
  { s with
    ds := { s.ds with
              colorMap := resetColors s.ds.colorMap
              comparisons := bfr.2.1
              swaps := bfr.2.2 }
    steps := bfr.1
    stepIdx := 0 }

/-- The per-frame step loop
`for (k = 0; k < spf && stepIdx < steps.size(); k++) steps[stepIdx++]();`. -/
def tickLoop (steps : List Step) (k : Nat) (d : Ds) (idx : Nat) : Ds × Nat :=
  match k with
  | 0 => (d, idx)
  | k + 1 =>
    if h : idx < steps.length then
      tickLoop steps k (execStep (steps.get ⟨idx, h⟩) d) (idx + 1)
    else (d, idx)

/-- The advance block of the main loop.  `spf` is the steps-per-frame count
computed from the speed level (any positive value is allowed here, abstracting
the value of `round(powf(2.8f, (speed-1)/3.0f))`, which lies in `[1, 22]`).
When the cursor reaches the end of the sequence, playback stops, `finished`
is set and every annotation is forced to 3 (Sorted). -/
def applyTick (spf : Nat) (s : SortState) : SortState :=
  if s.running = true ∧ s.finished = false then
    let res := tickLoop s.steps spf s.ds s.stepIdx
    let s1 := { s with ds := res.1, stepIdx := res.2 }
    if s1.steps.length ≤ s1.stepIdx then
      { s1 with
        running := false
        finished := true
        ds := { s1.ds with colorMap := s1.ds.colorMap.map fun _ => 3 } }
    else s1
  else s

/-- The SPACE key: when finished, reshuffle; otherwise materialize the step
list if none exists yet, then toggle `running`. -/
def pressSpace (s : SortState) (newBars : List Nat) : SortState :=
  if s.finished = true then shuffleWith s newBars
  else
    let s1 := if s.running = false ∧ s.steps = [] then buildSteps s else s
    { s1 with running := !s1.running }

/-- The state `main` starts from: default-constructed `SortState` (algorithm
bubble, speed 5, size index 3) followed by the initial `shuffle`. -/
def initState (newBars : List Nat) : SortState :=
  shuffleWith
    { ds := { bars := List.replicate (SIZE_OPTIONS.getD 3 0) 0,
              colorMap := List.replicate (SIZE_OPTIONS.getD 3 0) 0,
              comparisons := 0, swaps := 0 }
      algo := .BUBBLE
      running := false
      finished := false
      speed := 5
      sizeIdx := 3
      steps := []
      stepIdx := 0 }
    newBars

/-- A fresh permutation of `1..n`, as produced by `iota` plus `std::shuffle`. -/
def FreshPerm (n : Nat) (newBars : List Nat) : Prop :=
  newBars.Perm (List.range' 1 n)

/-- One observable transition of the main loop: each constructor is one of
the key handlers, or one execution of the per-frame advance block. -/
inductive MainStep : SortState → SortState → Prop where
  | algoKey (s : SortState) (a : Algorithm) (nb : List Nat)
      (h : FreshPerm (barCount s) nb) :
      MainStep s (shuffleWith { s with algo := a } nb)
  | shuffleKey (s : SortState) (nb : List Nat) (h : FreshPerm (barCount s) nb) :
      MainStep s (shuffleWith s nb)
  | spaceKey (s : SortState) (nb : List Nat) (h : FreshPerm (barCount s) nb) :
      MainStep s (pressSpace s nb)
  | speedUpKey (s : SortState) : MainStep s { s with speed := min 10 (s.speed + 1) }
  | speedDownKey (s : SortState) : MainStep s { s with speed := max 1 (s.speed - 1) }
  | sizeUpKey (s : SortState) (nb : List Nat)
      (hg : s.sizeIdx < SIZE_COUNT - 1 ∧ s.running = false)
      (h : FreshPerm (SIZE_OPTIONS.getD (s.sizeIdx + 1) 0) nb) :
      MainStep s (shuffleWith { s with sizeIdx := s.sizeIdx + 1 } nb)
  | sizeDownKey (s : SortState) (nb : List Nat)
      (hg : 0 < s.sizeIdx ∧ s.running = false)
      (h : FreshPerm (SIZE_OPTIONS.getD (s.sizeIdx - 1) 0) nb) :
      MainStep s (shuffleWith { s with sizeIdx := s.sizeIdx - 1 } nb)
  | frame (s : SortState) (spf : Nat) : MainStep s (applyTick spf s)

/-- States the main loop can reach: some initial shuffle followed by any
sequence of key handlers and frames. -/
def Reachable (s : SortState) : Prop :=
  ∃ nb₀, FreshPerm 100 nb₀ ∧ Relation.ReflTransGen MainStep (initState nb₀) s

/-! ## Auxiliary definitions used by the verification -/

/-- The effect of one bubble step on the values alone: compare-and-swap of
the adjacent pair at `j`. -/
def casB (b : List Nat) (j : Nat) : List Nat :=
  if b.getD j 0 > b.getD (j + 1) 0 then swapL b j (j + 1) else b

/-- Structural reference form of one bubble pass over a whole list. -/
def bpass : List Nat → List Nat
  | [] => []
  | [a] => [a]
  | a :: b :: t => if a > b then b :: bpass (a :: t) else a :: bpass (b :: t)

/-- The minimum index the selection scan ends up with (the values-level
projection of `selScan`). -/
def selMin (bars : List Nat) (n : Nat) (j mi : Nat) : Nat :=
  if j < n then
    if bars.getD j 0 < bars.getD mi 0 then selMin bars n (j + 1) j
    else selMin bars n (j + 1) mi
  else mi
termination_by n - j

/-- The values-level projection of `insLoop`. -/
def insLoopB (bars : List Nat) (key : Nat) (jj : Nat) : List Nat × Nat :=
  if 1 ≤ jj ∧ bars.getD (jj - 1) 0 > key then
    insLoopB (bars.set jj (bars.getD (jj - 1) 0)) key (jj - 1)
  else (bars, jj)
termination_by jj

/-- Structural reference merge, keeping the left element on ties as the
source comparison `tmp[i2] <= tmp[j2]` does. -/
def mergeL : List Nat → List Nat → List Nat
  | [], ys => ys
  | x :: xs, [] => x :: xs
  | x :: xs, y :: ys =>
    if x ≤ y then x :: mergeL xs (y :: ys) else y :: mergeL (x :: xs) ys

/-- The effect of one quick partition step on the values alone. -/
def qPartB (b : List Nat) (sL sR : Nat) : List Nat :=
  let pr := qgenLoop b (b.getD sR 0) sL sR sL
  swapL pr.1 pr.2 sR

/-- The effect of one selection step on the values alone. -/
def selStepB (b : List Nat) (i n : Nat) : List Nat :=
  let mi := selMin b n (i + 1) i
  if mi ≠ i then swapL b i mi else b

/-- The effect of one insertion step on the values alone. -/
def insStepB (b : List Nat) (i : Nat) : List Nat :=
  let key := b.getD i 0
  let res := insLoopB b key i
  res.1.set res.2 key

/-- The effect of one merge step on the values alone. -/
def mergeStepB (b : List Nat) (l m r : Nat) : List Nat :=
  writeAt b l (mergeLoop ((b.drop l).take (r + 1 - l)) (m - l) (r - l) 0 (m - l + 1) 0 0).1

/-- Every aligned chunk of width `w` is sorted (the bottom-up merge
invariant). -/
def ChunkSorted (w : Nat) (b : List Nat) : Prop :=
  ∀ k : Nat, List.Sorted (· ≤ ·) ((b.drop (k * w)).take w)

/-- The snapshot a quick partition step carries. -/
def snapOf : Step → List Nat
  | .quickPart snap _ _ => snap
  | _ => []

/-- The shadow array of the quick-sort generation at step boundary `K`: the
snapshot the step at position `K` was generated from, or the final shadow
array once `K` passes the discovered trace. -/
def quickTraceAt (bars : List Nat) (n K : Nat) : List Nat :=
  let res := quickLoop bars [(0, n - 1)]
  if h : K < res.1.length then snapOf (res.1.get ⟨K, h⟩) else res.2

/-- Index `i` lies in the (inclusive) range `seg`. -/
def SegIn (seg : Nat × Nat) (i : Nat) : Prop :=
  seg.1 ≤ i ∧ i ≤ seg.2

/-- The pending quick-sort ranges are pairwise disjoint. -/
def SegDisj (work : List (Nat × Nat)) : Prop :=
  work.Pairwise fun s t => s.2 < t.1 ∨ t.2 < s.1

/-- The invariant of the quick-sort shadow simulation: ranges in bounds and
disjoint, and every pair of positions not covered together by one pending
range is already ordered. -/
def QInv (n : Nat) (arr : List Nat) (work : List (Nat × Nat)) : Prop :=
  arr.length = n ∧
  (∀ seg ∈ work, seg.2 < n) ∧
  SegDisj work ∧
  ∀ i j, i < j → j < n → (¬ ∃ seg ∈ work, SegIn seg i ∧ SegIn seg j) →
    arr.getD i 0 ≤ arr.getD j 0

/-- The steps-per-tick count of the main loop,
`round(powf(2.8f, (speed - 1) / 3.0f))`, modelled over the reals. -/
noncomputable def stepsPerTick (speed : Nat) : ℤ :=
  round ((2.8 : ℝ) ^ (((speed : ℝ) - 1) / 3))

/-- The controller invariant: `finished` holds exactly when a non-empty
sequence has been exhausted; a finished state has every annotation forced to
3 (Sorted); the cursor never passes the end; `running` implies a sequence is
materialized. -/
def CtrlInv (s : SortState) : Prop :=
  (s.finished = true ↔ s.steps ≠ [] ∧ s.stepIdx = s.steps.length) ∧
  (s.finished = true → ∀ c ∈ s.ds.colorMap, c = 3) ∧
  s.stepIdx ≤ s.steps.length ∧
  (s.running = true → s.steps ≠ [])

/-- Interpret a step as its values-only effect when it is a merge step. -/
def mergeB (stp : Step) (c : List Nat) : List Nat :=
  match stp with
  | Step.merge l m r => mergeStepB c l m r
  | _ => c

/-- The work list `quickLoop` continues with after popping a non-trivial
range `(l, r)`: the two conditional sub-range pushes in front of the rest. -/
def nextWork (arr : List Nat) (l r : Nat) (rest : List (Nat × Nat)) : List (Nat × Nat) :=
  ((if (qgenLoop arr (arr.getD r 0) l r l).2 + 1 < r
    then [((qgenLoop arr (arr.getD r 0) l r l).2 + 1, r)] else []) ++
   (if l + 1 < (qgenLoop arr (arr.getD r 0) l r l).2
    then [(l, (qgenLoop arr (arr.getD r 0) l r l).2 - 1)] else [])) ++ rest

/-- The shape every step emitted by the heap generator has: an annotation-only
color step, a snapshot step carrying a permutation of the starting array, or
the final sort-and-mark step. -/
def HeapStepOk (n : Nat) (b0 : List Nat) (stp : Step) : Prop :=
  (∃ ci cl, stp = Step.heapColor ci cl) ∨
  (∃ snap, snap.Perm b0 ∧
    (stp = Step.heapSnapBuild snap ∨
     ∃ ii, stp = Step.heapSnapExtract snap ii n ∨ stp = Step.heapSnapRepair snap ii n)) ∨
  stp = Step.sortAll n

/-- A step keeps the live values a permutation of the start permutation
`b0` (of length `n`): the shape of the per-boundary invariant of a run. -/
def PermPres (n : Nat) (b0 : List Nat) (stp : Step) : Prop :=
  ∀ d : Ds, d.bars.length = n → d.bars.Perm b0 →
    (execStep stp d).bars.length = n ∧ (execStep stp d).bars.Perm b0

/-- A concrete session: start, drop the size to 25 bars three times, press
SPACE (materializing the bubble sequence and starting playback), then one
frame at 301 steps per frame, which exhausts the sequence. -/
def demo0 : SortState := initState (List.range' 1 100)

/-- Session state after the first size-down key. -/
def demo1 : SortState :=
  shuffleWith { demo0 with sizeIdx := demo0.sizeIdx - 1 } (List.range' 1 75)

/-- Session state after the second size-down key. -/
def demo2 : SortState :=
  shuffleWith { demo1 with sizeIdx := demo1.sizeIdx - 1 } (List.range' 1 50)

/-- Session state after the third size-down key. -/
def demo3 : SortState :=
  shuffleWith { demo2 with sizeIdx := demo2.sizeIdx - 1 } (List.range' 1 25)

/-- Session state after SPACE: the bubble sequence is built and playback runs. -/
def demo4 : SortState := pressSpace demo3 (List.range' 1 25)

/-- Session state after one 301-step frame: the sequence is exhausted. -/
def demo5 : SortState := applyTick 301 demo4

/-! ## Basic lemmas -/

theorem length_swapL (l : List Nat) (i j : Nat) : (swapL l i j).length = l.length := by
  simp [swapL]

theorem getD_swapL (l : List Nat) {i j : Nat} (hi : i < l.length) (hj : j < l.length)
    (k : Nat) :
    (swapL l i j).getD k 0 =
      if k = j then l.getD i 0 else if k = i then l.getD j 0 else l.getD k 0 := by
  simp only [swapL, List.getD_eq_getElem?_getD, List.getElem?_set, List.length_set]
  rcases eq_or_ne k j with rfl | hkj
  · simp [hi, hj, List.getElem?_eq_getElem hi, List.getD_eq_getElem l 0 hi]
  · rcases eq_or_ne k i with rfl | hki
    · simp [hi, hj, hkj, Ne.symm hkj, List.getElem?_eq_getElem hj,
        List.getD_eq_getElem l 0 hj]
    · simp [hkj, hki, Ne.symm hkj, Ne.symm hki]

theorem swapL_perm (l : List Nat) {i j : Nat} (hi : i < l.length) (hj : j < l.length) :
    (swapL l i j).Perm l := by
  rw [List.perm_iff_count]
  intro a
  have e1 : l.getD i 0 = l[i] := List.getD_eq_getElem l 0 hi
  have e2 : l.getD j 0 = l[j] := List.getD_eq_getElem l 0 hj
  have hj2 : j < (l.set i l[j]).length := by simpa using hj
  have h1 : l[i] ∈ l := List.getElem_mem hi
  have h2 : l[j] ∈ l := List.getElem_mem hj
  have h3 : 0 < List.count l[i] l := List.count_pos_iff.2 h1
  have h4 : 0 < List.count l[j] l := List.count_pos_iff.2 h2
  rw [swapL, e1, e2, List.count_set _ _ _ _ hj2, List.count_set _ _ _ _ hi]
  simp only [List.getElem_set, beq_iff_eq]
  rcases eq_or_ne i j with rfl | hij
  · simp only [if_pos rfl]
    rcases eq_or_ne l[i] a with rfl | h5
    · split_ifs <;> omega
    · simp [h5]
  · rw [if_neg hij]
    rcases eq_or_ne l[i] a with rfl | h5
    · rcases eq_or_ne l[j] l[i] with h6 | h6 <;> split_ifs <;> simp_all
    · rcases eq_or_ne l[j] a with rfl | h6
      · split_ifs <;> simp_all
      · simp [h5, h6]

theorem length_setRange (cm : List Nat) (a b v : Nat) :
    (setRange cm a b v).length = cm.length := by
  simp [setRange]

theorem length_resetColors (cm : List Nat) : (resetColors cm).length = cm.length := by
  simp [resetColors]

theorem stdSort_sorted (l : List Nat) : List.Sorted (· ≤ ·) (stdSort l) :=
  List.sorted_insertionSort _ l

theorem stdSort_perm (l : List Nat) : (stdSort l).Perm l :=
  List.perm_insertionSort _ l

theorem runList_nil (d : Ds) : runList [] d = d := rfl

theorem runList_cons (stp : Step) (steps : List Step) (d : Ds) :
    runList (stp :: steps) d = runList steps (execStep stp d) := rfl

theorem runList_append (l1 l2 : List Step) (d : Ds) :
    runList (l1 ++ l2) d = runList l2 (runList l1 d) := by
  simp [runList, List.foldl_append]

/-! ## Counter monotonicity of step execution -/

theorem selScan_cc_mono (bars : List Nat) (n i j mi : Nat) (cm : List Nat) (cc : Nat) :
    cc ≤ (selScan bars n i j mi cm cc).2.2 := by
  induction j, mi, cm, cc using selScan.induct bars n i with
  | case1 j mi cm cc hj cc1 cm1 hlt cm2 cm3 ih =>
    rw [selScan]
    simp only [if_pos hj, if_pos hlt]
    exact le_trans (by omega) ih
  | case2 j mi cm cc hj cc1 cm1 hlt ih =>
    rw [selScan]
    simp only [if_pos hj, if_neg hlt]
    exact le_trans (by omega) ih
  | case3 j mi cm cc hj =>
    rw [selScan]
    simp only [if_neg hj]
    exact le_refl _

theorem insLoop_counters_mono (bars cm : List Nat) (key jj cc ss : Nat) :
    cc ≤ (insLoop bars cm key jj cc ss).2.2.2.1 ∧
      ss ≤ (insLoop bars cm key jj cc ss).2.2.2.2 := by
  induction bars, cm, key, jj, cc, ss using insLoop.induct with
  | case1 bars cm key jj cc ss hg ih =>
    rw [insLoop, if_pos hg]
    exact ⟨le_trans (by omega) ih.1, le_trans (by omega) ih.2⟩
  | case2 bars cm key jj cc ss hg =>
    rw [insLoop, if_neg hg]
    exact ⟨le_refl _, le_refl _⟩

theorem mergeLoop_counters_mono (tmp : List Nat) (mm rr i2 j2 cc ss : Nat) :
    cc ≤ (mergeLoop tmp mm rr i2 j2 cc ss).2.1 ∧
      ss ≤ (mergeLoop tmp mm rr i2 j2 cc ss).2.2 := by
  induction i2, j2, cc, ss using mergeLoop.induct tmp mm rr with
  | case1 i2 j2 cc ss hg cc1 hle ih =>
    rw [mergeLoop]
    simp only [if_pos hg, if_pos hle]
    exact ⟨le_trans (by omega) ih.1, ih.2⟩
  | case2 i2 j2 cc ss hg cc1 hle ih =>
    rw [mergeLoop]
    simp only [if_pos hg, if_neg hle]
    exact ⟨le_trans (by omega) ih.1, le_trans (by omega) ih.2⟩
  | case3 i2 j2 cc ss hg =>
    rw [mergeLoop]
    simp only [if_neg hg]
    exact ⟨le_refl _, le_refl _⟩

theorem qexecLoop_counters_mono (bars cm : List Nat) (p2 j sR i4 cc ss : Nat) :
    cc ≤ (qexecLoop bars cm p2 j sR i4 cc ss).2.2.2.1 ∧
      ss ≤ (qexecLoop bars cm p2 j sR i4 cc ss).2.2.2.2 := by
  induction bars, cm, p2, j, sR, i4, cc, ss using qexecLoop.induct with
  | case1 bars cm p2 j sR i4 cc ss hj cc1 cm1 hle ih =>
    rw [qexecLoop]
    simp only [if_pos hj, if_pos hle]
    exact ⟨le_trans (by omega) ih.1, le_trans (by omega) ih.2⟩
  | case2 bars cm p2 j sR i4 cc ss hj cc1 cm1 hle ih =>
    rw [qexecLoop]
    simp only [if_pos hj, if_neg hle]
    exact ⟨le_trans (by omega) ih.1, ih.2⟩
  | case3 bars cm p2 j sR i4 cc ss hj =>
    rw [qexecLoop]
    simp only [if_neg hj]
    exact ⟨le_refl _, le_refl _⟩

/-- No step ever decreases either counter. -/
theorem execStep_counters_mono (stp : Step) (d : Ds) :
    d.comparisons ≤ (execStep stp d).comparisons ∧ d.swaps ≤ (execStep stp d).swaps := by
  cases stp with
  | bubble j i n =>
    simp only [execStep]
    split_ifs <;> simp
  | select i n =>
    have h := selScan_cc_mono d.bars n i (i + 1) i ((resetColors d.colorMap).set i 2)
      d.comparisons
    simp only [execStep]
    split_ifs <;> simp <;> omega
  | insert i =>
    have h := insLoop_counters_mono d.bars ((resetColors d.colorMap).set i 2)
      (d.bars.getD i 0) i d.comparisons d.swaps
    simp only [execStep]
    exact h
  | merge l m r =>
    have h := mergeLoop_counters_mono ((d.bars.drop l).take (r + 1 - l)) (m - l) (r - l)
      0 (m - l + 1) d.comparisons d.swaps
    simp only [execStep]
    exact h
  | quickPart snap sL sR =>
    have h := qexecLoop_counters_mono d.bars (((resetColors d.colorMap).set sR 2))
      (d.bars.getD sR 0) sL sR sL d.comparisons d.swaps
    simp only [execStep]
    exact h
  | heapColor ci cl => simp [execStep]
  | heapSnapBuild snap => simp [execStep]
  | heapSnapExtract snap ss n => simp [execStep]
  | heapSnapRepair snap si2 n => simp [execStep]
  | markAll n => simp [execStep]
  | sortAll n => simp [execStep]

/-! ## Values-level projections of step execution -/

theorem execStep_bubble_bars (j i n : Nat) (d : Ds) :
    (execStep (Step.bubble j i n) d).bars = casB d.bars j := by
  simp only [execStep, casB]
  split_ifs <;> rfl

theorem selScan_fst (bars : List Nat) (n i j mi : Nat) (cm : List Nat) (cc : Nat) :
    (selScan bars n i j mi cm cc).1 = selMin bars n j mi := by
  induction j, mi, cm, cc using selScan.induct bars n i with
  | case1 j mi cm cc hj cc1 cm1 hlt cm2 cm3 ih =>
    rw [selScan, selMin]
    simp only [if_pos hj, if_pos hlt]
    exact ih
  | case2 j mi cm cc hj cc1 cm1 hlt ih =>
    rw [selScan, selMin]
    simp only [if_pos hj, if_neg hlt]
    exact ih
  | case3 j mi cm cc hj =>
    rw [selScan, selMin]
    simp only [if_neg hj]

theorem execStep_select_bars (i n : Nat) (d : Ds) :
    (execStep (Step.select i n) d).bars = selStepB d.bars i n := by
  simp only [execStep, selStepB, selScan_fst]
  split_ifs <;> rfl

theorem insLoop_proj (bars cm : List Nat) (key jj cc ss : Nat) :
    (insLoop bars cm key jj cc ss).1 = (insLoopB bars key jj).1 ∧
      (insLoop bars cm key jj cc ss).2.2.1 = (insLoopB bars key jj).2 := by
  induction bars, cm, key, jj, cc, ss using insLoop.induct with
  | case1 bars cm key jj cc ss hg ih =>
    rw [insLoop, if_pos hg, insLoopB, if_pos hg]
    exact ih
  | case2 bars cm key jj cc ss hg =>
    rw [insLoop, if_neg hg, insLoopB, if_neg hg]
    exact ⟨rfl, rfl⟩

theorem execStep_insert_bars (i : Nat) (d : Ds) :
    (execStep (Step.insert i) d).bars = insStepB d.bars i := by
  have h := insLoop_proj d.bars ((resetColors d.colorMap).set i 2) (d.bars.getD i 0) i
    d.comparisons d.swaps
  simp only [execStep, insStepB]
  rw [h.1, h.2]

theorem mergeLoop_fst_const (tmp : List Nat) (mm rr i2 j2 cc ss cc2 ss2 : Nat) :
    (mergeLoop tmp mm rr i2 j2 cc ss).1 = (mergeLoop tmp mm rr i2 j2 cc2 ss2).1 := by
  induction i2, j2, cc, ss using mergeLoop.induct tmp mm rr generalizing cc2 ss2 with
  | case1 i2 j2 cc ss hg cc1 hle ih =>
    rw [mergeLoop, mergeLoop]
    simp only [if_pos hg, if_pos hle]
    simp [ih (cc2 + 1) ss2]
  | case2 i2 j2 cc ss hg cc1 hle ih =>
    rw [mergeLoop, mergeLoop]
    simp only [if_pos hg, if_neg hle]
    simp [ih (cc2 + 1) (ss2 + 1)]
  | case3 i2 j2 cc ss hg =>
    rw [mergeLoop, mergeLoop]
    simp only [if_neg hg]

theorem execStep_merge_bars (l m r : Nat) (d : Ds) :
    (execStep (Step.merge l m r) d).bars = mergeStepB d.bars l m r := by
  simp only [execStep, mergeStepB]
  rw [mergeLoop_fst_const ((d.bars.drop l).take (r + 1 - l)) (m - l) (r - l) 0 (m - l + 1)
    d.comparisons d.swaps 0 0]

theorem qexecLoop_proj (bars cm : List Nat) (p2 j sR i4 cc ss : Nat) :
    (qexecLoop bars cm p2 j sR i4 cc ss).1 = (qgenLoop bars p2 j sR i4).1 ∧
      (qexecLoop bars cm p2 j sR i4 cc ss).2.2.1 = (qgenLoop bars p2 j sR i4).2 := by
  induction bars, cm, p2, j, sR, i4, cc, ss using qexecLoop.induct with
  | case1 bars cm p2 j sR i4 cc ss hj cc1 cm1 hle ih =>
    rw [qexecLoop, qgenLoop]
    simp only [if_pos hj, if_pos hle]
    exact ih
  | case2 bars cm p2 j sR i4 cc ss hj cc1 cm1 hle ih =>
    rw [qexecLoop, qgenLoop]
    simp only [if_pos hj, if_neg hle]
    exact ih
  | case3 bars cm p2 j sR i4 cc ss hj =>
    rw [qexecLoop, qgenLoop]
    simp [if_neg hj]

theorem execStep_quick_bars (snap : List Nat) (sL sR : Nat) (d : Ds) :
    (execStep (Step.quickPart snap sL sR) d).bars = qPartB d.bars sL sR := by
  have h := qexecLoop_proj d.bars ((resetColors d.colorMap).set sR 2) (d.bars.getD sR 0)
    sL sR sL d.comparisons d.swaps
  simp only [execStep, qPartB]
  rw [h.1, h.2]

theorem execStep_heapColor_bars (ci cl : Nat) (d : Ds) :
    (execStep (Step.heapColor ci cl) d).bars = d.bars := rfl

theorem execStep_heapSnapBuild_bars (snap : List Nat) (d : Ds) :
    (execStep (Step.heapSnapBuild snap) d).bars = snap := rfl

theorem execStep_heapSnapExtract_bars (snap : List Nat) (ss n : Nat) (d : Ds) :
    (execStep (Step.heapSnapExtract snap ss n) d).bars = snap := rfl

theorem execStep_heapSnapRepair_bars (snap : List Nat) (si2 n : Nat) (d : Ds) :
    (execStep (Step.heapSnapRepair snap si2 n) d).bars = snap := rfl

theorem execStep_markAll_bars (n : Nat) (d : Ds) :
    (execStep (Step.markAll n) d).bars = d.bars := rfl

theorem execStep_sortAll_bars (n : Nat) (d : Ds) :
    (execStep (Step.sortAll n) d).bars = stdSort d.bars := rfl

/-! ## Small list helpers -/

theorem sortedNat_append {l1 l2 : List Nat} :
    List.Sorted (· ≤ ·) (l1 ++ l2) ↔
      List.Sorted (· ≤ ·) l1 ∧ List.Sorted (· ≤ ·) l2 ∧
        ∀ x ∈ l1, ∀ y ∈ l2, x ≤ y :=
  List.pairwise_append

theorem getD_length_sub_one (P : List Nat) : P.getD (P.length - 1) 0 = P.getLastD 0 := by
  rw [List.getLastD_eq_getLast?, List.getLast?_eq_getElem?, List.getD_eq_getElem?_getD]

theorem set_last_eq (P : List Nat) (v : Nat) (h : P ≠ []) :
    P.set (P.length - 1) v = P.dropLast ++ [v] := by
  have hlen : 0 < P.length := List.length_pos.2 h
  rw [List.set_eq_take_append_cons_drop, if_pos (by omega), List.dropLast_eq_take]
  have h2 : P.length - 1 + 1 = P.length := by omega
  rw [h2, List.drop_length]

theorem dropLast_concat_getLastD (P : List Nat) (h : P ≠ []) :
    P.dropLast ++ [P.getLastD 0] = P := by
  rw [List.getLastD_eq_getLast?, List.getLast?_eq_getLast _ h]
  exact List.dropLast_append_getLast h

theorem getLastD_mem (P : List Nat) (h : P ≠ []) : P.getLastD 0 ∈ P := by
  rw [List.getLastD_eq_getLast?, List.getLast?_eq_getLast _ h]
  exact List.getLast_mem h

theorem getLastD_irrel (P : List Nat) (d : Nat) (h : P ≠ []) :
    P.getLastD d = P.getLastD 0 := by
  rw [List.getLastD_eq_getLast?, List.getLastD_eq_getLast?, List.getLast?_eq_getLast _ h]
  rfl

theorem drop_length_sub_one (P : List Nat) (h : P ≠ []) :
    P.drop (P.length - 1) = [P.getLastD 0] := by
  have h1 : P.length - 1 < P.length := by
    have := List.length_pos.2 h
    omega
  rw [List.drop_eq_getElem_cons h1]
  have h2 : P.length - 1 + 1 = P.length := by
    have := List.length_pos.2 h
    omega
  rw [h2, List.drop_length]
  have h3 := getD_length_sub_one P
  rw [List.getD_eq_getElem P 0 h1] at h3
  rw [h3]

theorem foldl_flatMap {α β γ : Type} (g : γ → β → γ) (xs : List α) (f : α → List β)
    (init : γ) :
    (xs.flatMap f).foldl g init = xs.foldl (fun acc x => (f x).foldl g acc) init := by
  induction xs generalizing init with
  | nil => rfl
  | cons x xs ih => simp [List.flatMap_cons, List.foldl_append, ih]

theorem runList_bars (steps : List Step) (f : Step → List Nat → List Nat)
    (h : ∀ stp ∈ steps, ∀ d : Ds, (execStep stp d).bars = f stp d.bars) (d : Ds) :
    (runList steps d).bars = steps.foldl (fun b stp => f stp b) d.bars := by
  induction steps generalizing d with
  | nil => rfl
  | cons stp steps ih =>
    rw [runList_cons, List.foldl_cons, ih (fun s hs => h s (by simp [hs])),
      h stp (by simp)]

/-! ## Bubble sort correctness -/

theorem bpass_length (l : List Nat) : (bpass l).length = l.length := by
  induction l using bpass.induct with
  | case1 => simp [bpass]
  | case2 a => simp [bpass]
  | case3 a b t h ih =>
    simp only [bpass, if_pos h]
    simpa using ih
  | case4 a b t h ih =>
    simp only [bpass, if_neg h]
    simpa using ih

theorem bpass_perm (l : List Nat) : (bpass l).Perm l := by
  induction l using bpass.induct with
  | case1 => simp [bpass]
  | case2 a => simp [bpass]
  | case3 a b t h ih =>
    simp only [bpass, if_pos h]
    exact (ih.cons b).trans (List.Perm.swap a b t)
  | case4 a b t h ih =>
    simp only [bpass, if_neg h]
    exact ih.cons a

theorem bpass_ne_nil {l : List Nat} (h : l ≠ []) : bpass l ≠ [] := by
  intro hc
  have := bpass_length l
  rw [hc] at this
  exact h (List.length_eq_zero.1 this.symm)

theorem bpass_le_last (l : List Nat) :
    ∀ y ∈ bpass l, y ≤ (bpass l).getLastD 0 := by
  induction l using bpass.induct with
  | case1 => intro y hy; simp [bpass] at hy
  | case2 a => intro y hy; simp [bpass] at hy ⊢; omega
  | case3 a b t h ih =>
    intro y hy
    simp only [bpass, if_pos h] at hy ⊢
    have hne : bpass (a :: t) ≠ [] := bpass_ne_nil (by simp)
    rw [List.getLastD_cons, getLastD_irrel _ _ hne]
    rcases List.mem_cons.1 hy with rfl | hy
    · have ha : a ∈ bpass (a :: t) := (bpass_perm (a :: t)).mem_iff.2 (by simp)
      have := ih a ha
      omega
    · exact ih y hy
  | case4 a b t h ih =>
    intro y hy
    simp only [bpass, if_neg h] at hy ⊢
    have hne : bpass (b :: t) ≠ [] := bpass_ne_nil (by simp)
    rw [List.getLastD_cons, getLastD_irrel _ _ hne]
    rcases List.mem_cons.1 hy with rfl | hy
    · have hb : b ∈ bpass (b :: t) := (bpass_perm (b :: t)).mem_iff.2 (by simp)
      have := ih b hb
      omega
    · exact ih y hy

theorem bpass_concat (l : List Nat) (x : Nat) (hl : l ≠ []) :
    bpass (l ++ [x]) =
      if (bpass l).getLastD 0 > x
      then (bpass l).dropLast ++ [x, (bpass l).getLastD 0]
      else (bpass l).dropLast ++ [(bpass l).getLastD 0, x] := by
  induction l using bpass.induct with
  | case1 => exact absurd rfl hl
  | case2 a =>
    have h1 : ([a] : List Nat).getLastD 0 = a := rfl
    have h2 : ([a] : List Nat).dropLast = [] := rfl
    simp only [List.cons_append, List.nil_append, bpass, h1, h2]
  | case3 a b t h ih =>
    have ih2 := ih (by simp)
    have hne : bpass (a :: t) ≠ [] := bpass_ne_nil (by simp)
    simp only [List.cons_append] at ih2 ⊢
    simp only [bpass, if_pos h]
    rw [ih2]
    obtain ⟨q, qs, hq⟩ := List.exists_cons_of_ne_nil hne
    rw [hq]
    simp only [List.getLastD_cons, List.dropLast_cons₂]
    have hirr : qs.getLastD q = qs.getLastD b ∨ qs = [] := by
      cases qs with
      | nil => exact Or.inr rfl
      | cons u v =>
        refine Or.inl ?_
        rw [List.getLastD_eq_getLast?, List.getLastD_eq_getLast?,
          List.getLast?_eq_getLast _ (by simp)]
        rfl
    rcases hirr with h5 | h5
    · rw [h5]
      split_ifs <;> simp
    · subst h5
      simp only [List.getLastD]
      split_ifs <;> simp
  | case4 a b t h ih =>
    have ih2 := ih (by simp)
    have hne : bpass (b :: t) ≠ [] := bpass_ne_nil (by simp)
    simp only [List.cons_append] at ih2 ⊢
    simp only [bpass, if_neg h]
    rw [ih2]
    obtain ⟨q, qs, hq⟩ := List.exists_cons_of_ne_nil hne
    rw [hq]
    simp only [List.getLastD_cons, List.dropLast_cons₂]
    have hirr : qs.getLastD q = qs.getLastD a ∨ qs = [] := by
      cases qs with
      | nil => exact Or.inr rfl
      | cons u v =>
        refine Or.inl ?_
        rw [List.getLastD_eq_getLast?, List.getLastD_eq_getLast?,
          List.getLast?_eq_getLast _ (by simp)]
        rfl
    rcases hirr with h5 | h5
    · rw [h5]
      split_ifs <;> simp
    · subst h5
      simp only [List.getLastD]
      split_ifs <;> simp

theorem foldl_casB_eq_bpass (b : List Nat) (m : Nat) (hm : m < b.length) :
    (List.range m).foldl casB b = bpass (b.take (m + 1)) ++ b.drop (m + 1) := by
  induction m with
  | zero =>
    cases b with
    | nil => simp at hm
    | cons y t => simp [bpass]
  | succ m ih =>
    rw [List.range_succ, List.foldl_append, ih (by omega)]
    simp only [List.foldl_cons, List.foldl_nil]
    have hPlen : (bpass (b.take (m + 1))).length = m + 1 := by
      rw [bpass_length, List.length_take]
      omega
    have hPne : bpass (b.take (m + 1)) ≠ [] := by
      intro hc
      rw [hc] at hPlen
      simp at hPlen
    have hdrop : b.drop (m + 1) = b[m + 1] :: b.drop (m + 2) :=
      List.drop_eq_getElem_cons hm
    rw [hdrop]
    set P := bpass (b.take (m + 1)) with hP
    have hg1 : (P ++ b[m + 1] :: b.drop (m + 2)).getD m 0 = P.getLastD 0 := by
      rw [List.getD_append _ _ _ m (by omega)]
      have h4 := getD_length_sub_one P
      rw [hPlen] at h4
      simpa using h4
    have hg2 : (P ++ b[m + 1] :: b.drop (m + 2)).getD (m + 1) 0 = b[m + 1] := by
      rw [List.getD_append_right _ _ _ _ (by omega), hPlen, Nat.sub_self]
      rfl
    have htake2 : b.take (m + 2) = b.take (m + 1) ++ [b[m + 1]] := by
      rw [← List.take_concat_get b (m + 1) hm]
      simp
    have htne : b.take (m + 1) ≠ [] := by
      intro hc
      have h5 : (b.take (m + 1)).length = 0 := by rw [hc]; rfl
      rw [List.length_take] at h5
      omega
    rw [casB, hg1, hg2, htake2, bpass_concat _ _ htne, ← hP]
    split_ifs with hcond
    · rw [swapL, hg2, hg1]
      have hset1 : (P ++ b[m + 1] :: b.drop (m + 2)).set m b[m + 1] =
          (P.dropLast ++ [b[m + 1]]) ++ b[m + 1] :: b.drop (m + 2) := by
        rw [List.set_append, if_pos (by omega)]
        congr 1
        have h6 := set_last_eq P b[m + 1] hPne
        rw [hPlen] at h6
        simpa using h6
      rw [hset1, List.set_append, if_neg (by simp [List.length_dropLast, hPlen])]
      have hidx : m + 1 - (P.dropLast ++ [b[m + 1]]).length = 0 := by
        simp [List.length_dropLast, hPlen]
      rw [hidx, List.set_cons_zero]
      simp
    · conv_lhs => rw [← dropLast_concat_getLastD P hPne]
      simp

theorem bubble_fold_sorted_perm (n : Nat) (b : List Nat) (hb : b.length = n) :
    List.Sorted (· ≤ ·)
      ((List.range (n - 1)).foldl
        (fun c i => (List.range (n - 1 - i)).foldl casB c) b) ∧
    ((List.range (n - 1)).foldl
        (fun c i => (List.range (n - 1 - i)).foldl casB c) b).Perm b := by
  rcases Nat.eq_zero_or_pos n with h0 | hpos
  · subst h0
    have hb2 : b = [] := List.length_eq_zero.1 hb
    subst hb2
    simp
  · have main : ∀ i, i ≤ n - 1 →
        (((List.range i).foldl
            (fun c i => (List.range (n - 1 - i)).foldl casB c) b).length = n ∧
         ((List.range i).foldl
            (fun c i => (List.range (n - 1 - i)).foldl casB c) b).Perm b ∧
         List.Sorted (· ≤ ·)
           (((List.range i).foldl
              (fun c i => (List.range (n - 1 - i)).foldl casB c) b).drop (n - i)) ∧
         ∀ x ∈ ((List.range i).foldl
              (fun c i => (List.range (n - 1 - i)).foldl casB c) b).take (n - i),
           ∀ y ∈ ((List.range i).foldl
              (fun c i => (List.range (n - 1 - i)).foldl casB c) b).drop (n - i),
             x ≤ y) := by
      intro i
      induction i with
      | zero =>
        intro _
        simp only [List.range_zero, List.foldl_nil]
        refine ⟨hb, List.Perm.refl b, ?_, ?_⟩
        · rw [Nat.sub_zero, ← hb, List.drop_length]
          exact List.sorted_nil
        · intro x hx y hy
          rw [Nat.sub_zero, ← hb, List.drop_length] at hy
          simp at hy
      | succ i ih =>
        intro hi
        obtain ⟨hlen, hperm, hsort, hbound⟩ := ih (by omega)
        rw [List.range_succ, List.foldl_append]
        simp only [List.foldl_cons, List.foldl_nil]
        set c := (List.range i).foldl
          (fun c i => (List.range (n - 1 - i)).foldl casB c) b with hc
        have hm : n - 1 - i < c.length := by omega
        rw [foldl_casB_eq_bpass c (n - 1 - i) hm]
        have harith : n - 1 - i + 1 = n - i := by omega
        rw [harith]
        set Q := bpass (c.take (n - i)) with hQ
        set S := c.drop (n - i) with hS
        have hQlen : Q.length = n - i := by
          rw [hQ, bpass_length, List.length_take]
          omega
        have hQne : Q ≠ [] := by
          intro hcon
          rw [hcon] at hQlen
          simp at hQlen
          omega
        have hQperm : Q.Perm (c.take (n - i)) := bpass_perm _
        have hlenQS : (Q ++ S).length = n := by
          rw [List.length_append, hQlen, hS, List.length_drop]
          omega
        have hdropQS : (Q ++ S).drop (n - (i + 1)) = Q.getLastD 0 :: S := by
          have h1 : n - (i + 1) = Q.length - 1 := by omega
          rw [h1, List.drop_append_of_le_length (by omega),
            drop_length_sub_one Q hQne]
          rfl
        have htakeQS : (Q ++ S).take (n - (i + 1)) = Q.dropLast := by
          have h1 : n - (i + 1) = Q.length - 1 := by omega
          rw [h1, List.take_append_of_le_length (by omega), List.dropLast_eq_take]
        refine ⟨hlenQS, ?_, ?_, ?_⟩
        · have h1 : (Q ++ S).Perm (c.take (n - i) ++ S) := hQperm.append_right S
          have h2 : c.take (n - i) ++ S = c := by
            rw [hS]
            exact List.take_append_drop _ c
          rw [h2] at h1
          exact h1.trans hperm
        · rw [hdropQS, List.sorted_cons]
          constructor
          · intro y hy
            have hmem : Q.getLastD 0 ∈ c.take (n - i) :=
              hQperm.mem_iff.1 (getLastD_mem Q hQne)
            exact hbound _ hmem y hy
          · exact hsort
        · intro x hx y hy
          rw [htakeQS] at hx
          rw [hdropQS] at hy
          have hxQ : x ∈ Q := (List.dropLast_sublist Q).subset hx
          rcases List.mem_cons.1 hy with rfl | hyS
          · exact bpass_le_last _ x hxQ
          · have hxc : x ∈ c.take (n - i) := hQperm.mem_iff.1 hxQ
            exact hbound x hxc y hyS
    obtain ⟨hlen, hperm, hsort, hbound⟩ := main (n - 1) (le_refl _)
    refine ⟨?_, hperm⟩
    set c := (List.range (n - 1)).foldl
      (fun c i => (List.range (n - 1 - i)).foldl casB c) b with hc
    have hsplit : c = c.take (n - (n - 1)) ++ c.drop (n - (n - 1)) :=
      (List.take_append_drop _ c).symm
    rw [hsplit, sortedNat_append]
    refine ⟨?_, hsort, hbound⟩
    cases htk : c.take (n - (n - 1)) with
    | nil => exact List.sorted_nil
    | cons a t =>
      have h1 : n - (n - 1) = 1 := by omega
      have h2 := congrArg List.length htk
      rw [List.length_take, h1] at h2
      have h3 : t = [] := by
        cases t with
        | nil => rfl
        | cons u v =>
          simp at h2
          omega
      rw [h3]
      exact List.sorted_singleton a

theorem runPrefix_perm (steps : List Step) (n : Nat) (b0 : List Nat)
    (h : ∀ stp ∈ steps, PermPres n b0 stp) :
    ∀ (d : Ds), d.bars.length = n → d.bars.Perm b0 → ∀ K,
      (runList (steps.take K) d).bars.length = n ∧
        (runList (steps.take K) d).bars.Perm b0 := by
  induction steps with
  | nil =>
    intro d hl hp K
    simp [runList_nil]
    exact ⟨hl, hp⟩
  | cons stp steps ih =>
    intro d hl hp K
    cases K with
    | zero => exact ⟨hl, hp⟩
    | succ K =>
      rw [List.take_succ_cons, runList_cons]
      have h1 := h stp (by simp) d hl hp
      exact ih (fun s hs => h s (by simp [hs])) _ h1.1 h1.2 K

theorem bubble_run_bars (n : Nat) (d : Ds) :
    (runList (buildBubble n) d).bars =
      (List.range (n - 1)).foldl
        (fun c i => (List.range (n - 1 - i)).foldl casB c) d.bars := by
  rw [buildBubble, runList_append]
  have h1 : runList [Step.markAll n] (runList ((List.range (n - 1)).flatMap fun i =>
      (List.range (n - 1 - i)).map fun j => Step.bubble j i n) d) =
      execStep (Step.markAll n) (runList ((List.range (n - 1)).flatMap fun i =>
      (List.range (n - 1 - i)).map fun j => Step.bubble j i n) d) := rfl
  rw [h1, execStep_markAll_bars]
  rw [runList_bars _ (fun stp b =>
    match stp with
    | Step.bubble j _ _ => casB b j
    | _ => b)]
  · rw [foldl_flatMap]
    simp only [List.foldl_map]
  · intro stp hstp d2
    rw [List.mem_flatMap] at hstp
    obtain ⟨i, hi, hstp⟩ := hstp
    rw [List.mem_map] at hstp
    obtain ⟨j, hj, rfl⟩ := hstp
    exact execStep_bubble_bars j i n d2

/-- The full bubble sequence sorts the live array and leaves it a
permutation of the start. -/
theorem bubble_run_sorted (n : Nat) (d : Ds) (hlen : d.bars.length = n) :
    List.Sorted (· ≤ ·) (runList (buildBubble n) d).bars ∧
      (runList (buildBubble n) d).bars.Perm d.bars := by
  rw [bubble_run_bars]
  exact bubble_fold_sorted_perm n d.bars hlen

/-! ## Selection sort correctness -/

theorem take_set_of_le (l : List Nat) (m k v : Nat) (h : k ≤ m) :
    (l.set m v).take k = l.take k := by
  apply List.ext_getElem?
  intro idx
  rw [List.getElem?_take, List.getElem?_take]
  split_ifs with hidx
  · rw [List.getElem?_set, if_neg (by omega)]
  · rfl

theorem take_swapL_of_le (l : List Nat) (i j k : Nat) (hi : k ≤ i) (hj : k ≤ j) :
    (swapL l i j).take k = l.take k := by
  rw [swapL, take_set_of_le _ _ _ _ hj, take_set_of_le _ _ _ _ hi]

theorem drop_swapL_perm (l : List Nat) (i j k : Nat) (hk1 : k ≤ i) (hk2 : k ≤ j)
    (hi : i < l.length) (hj : j < l.length) :
    ((swapL l i j).drop k).Perm (l.drop k) := by
  have e1 : (l.drop k).getD (j - k) 0 = l.getD j 0 := by
    rw [List.getD_eq_getElem?_getD, List.getD_eq_getElem?_getD, List.getElem?_drop]
    have h3 : k + (j - k) = j := by omega
    rw [h3]
  have e2 : (l.drop k).getD (i - k) 0 = l.getD i 0 := by
    rw [List.getD_eq_getElem?_getD, List.getD_eq_getElem?_getD, List.getElem?_drop]
    have h3 : k + (i - k) = i := by omega
    rw [h3]
  have hd1 : (swapL l i j).drop k = swapL (l.drop k) (i - k) (j - k) := by
    rw [swapL, swapL, List.drop_set, if_neg (by omega), List.drop_set,
      if_neg (by omega), e1, e2]
  rw [hd1]
  exact swapL_perm _ (by rw [List.length_drop]; omega) (by rw [List.length_drop]; omega)

theorem mem_drop_iff_getD (b : List Nat) (i : Nat) (y : Nat) :
    y ∈ b.drop i ↔ ∃ k, i ≤ k ∧ k < b.length ∧ b.getD k 0 = y := by
  rw [List.mem_iff_getElem?]
  constructor
  · rintro ⟨idx, hidx⟩
    rw [List.getElem?_drop] at hidx
    have hlt : i + idx < b.length := by
      by_contra hcon
      rw [List.getElem?_eq_none (by omega)] at hidx
      exact Option.noConfusion hidx
    refine ⟨i + idx, by omega, hlt, ?_⟩
    rw [List.getD_eq_getElem?_getD, hidx]
    rfl
  · rintro ⟨k, hk1, hk2, hval⟩
    refine ⟨k - i, ?_⟩
    rw [List.getElem?_drop]
    have h3 : i + (k - i) = k := by omega
    rw [h3, List.getElem?_eq_getElem hk2]
    rw [List.getD_eq_getElem b 0 hk2] at hval
    rw [hval]

theorem selMin_spec (b : List Nat) (n : Nat) (j mi : Nat) :
    (selMin b n j mi = mi ∨ (j ≤ selMin b n j mi ∧ selMin b n j mi < n)) ∧
      b.getD (selMin b n j mi) 0 ≤ b.getD mi 0 ∧
      ∀ k, j ≤ k → k < n → b.getD (selMin b n j mi) 0 ≤ b.getD k 0 := by
  induction j, mi using selMin.induct b n with
  | case1 j mi hj hlt ih =>
    have heq : selMin b n j mi = selMin b n (j + 1) j := by
      rw [selMin]
      simp only [if_pos hj, if_pos hlt]
    rw [heq]
    obtain ⟨ih1, ih2, ih3⟩ := ih
    refine ⟨?_, le_trans ih2 (le_of_lt hlt), ?_⟩
    · rcases ih1 with h | h
      · exact Or.inr ⟨by omega, by rw [h]; exact hj⟩
      · exact Or.inr ⟨by omega, h.2⟩
    · intro k hk1 hk2
      rcases Nat.eq_or_lt_of_le hk1 with rfl | hk3
      · exact ih2
      · exact ih3 k (by omega) hk2
  | case2 j mi hj hlt ih =>
    have heq : selMin b n j mi = selMin b n (j + 1) mi := by
      rw [selMin]
      simp only [if_pos hj, if_neg hlt]
    rw [heq]
    obtain ⟨ih1, ih2, ih3⟩ := ih
    push_neg at hlt
    refine ⟨?_, ih2, ?_⟩
    · rcases ih1 with h | h
      · exact Or.inl h
      · exact Or.inr ⟨by omega, h.2⟩
    · intro k hk1 hk2
      rcases Nat.eq_or_lt_of_le hk1 with rfl | hk3
      · exact le_trans ih2 hlt
      · exact ih3 k (by omega) hk2
  | case3 j mi hj =>
    have heq : selMin b n j mi = mi := by
      rw [selMin]
      simp only [if_neg hj]
    rw [heq]
    exact ⟨Or.inl rfl, le_refl _, fun k hk1 hk2 => absurd (by omega : j < n) hj⟩

theorem selStep_inv (b : List Nat) (n i : Nat) (hlen : b.length = n) (hi : i + 1 ≤ n)
    (hsort : List.Sorted (· ≤ ·) (b.take i))
    (hbound : ∀ x ∈ b.take i, ∀ y ∈ b.drop i, x ≤ y) :
    (selStepB b i n).length = n ∧ (selStepB b i n).Perm b ∧
      List.Sorted (· ≤ ·) ((selStepB b i n).take (i + 1)) ∧
      ∀ x ∈ (selStepB b i n).take (i + 1), ∀ y ∈ (selStepB b i n).drop (i + 1), x ≤ y := by
  have hspec := selMin_spec b n (i + 1) i
  set mi := selMin b n (i + 1) i with hmi
  have hmiBounds : i ≤ mi ∧ mi < n := by
    rcases hspec.1 with h | h
    · rw [h]; omega
    · omega
  have hminAll : ∀ k, i ≤ k → k < n → b.getD mi 0 ≤ b.getD k 0 := by
    intro k hk1 hk2
    rcases Nat.eq_or_lt_of_le hk1 with rfl | hk3
    · exact hspec.2.1
    · exact hspec.2.2 k (by omega) hk2
  have hmiMem : b.getD mi 0 ∈ b.drop i := by
    rw [mem_drop_iff_getD]
    exact ⟨mi, hmiBounds.1, by omega, rfl⟩
  have key : ∀ c : List Nat, c = selStepB b i n →
      c.length = n ∧ c.Perm b ∧ c.take i = b.take i ∧ c.getD i 0 = b.getD mi 0 ∧
        (c.drop i).Perm (b.drop i) := by
    intro c hc
    rw [selStepB, ← hmi] at hc
    by_cases hne : mi ≠ i
    · rw [if_pos hne] at hc
      rw [hc]
      refine ⟨by rw [length_swapL]; exact hlen, swapL_perm b (by omega) (by omega),
        take_swapL_of_le b i mi i (le_refl i) hmiBounds.1, ?_, ?_⟩
      · rw [getD_swapL b (by omega) (by omega) i, if_neg (by omega), if_pos rfl]
      · exact drop_swapL_perm b i mi i (le_refl i) hmiBounds.1 (by omega) (by omega)
    · rw [if_neg hne] at hc
      push_neg at hne
      rw [hc]
      exact ⟨hlen, List.Perm.refl b, rfl, by rw [hne], List.Perm.refl _⟩
  obtain ⟨hclen, hcperm, hctake, hcget, hcdrop⟩ := key _ rfl
  set c := selStepB b i n
  have hitake : c.take (i + 1) = b.take i ++ [b.getD mi 0] := by
    have h1 : i < c.length := by omega
    rw [← List.take_concat_get c i h1]
    rw [List.concat_eq_append, hctake]
    congr 2
    rw [← List.getD_eq_getElem c 0 h1]
    exact hcget
  have hdropsub : ∀ y ∈ c.drop (i + 1), y ∈ b.drop i := by
    intro y hy
    have h1 : i < c.length := by omega
    have h2 : c.drop i = c.getD i 0 :: c.drop (i + 1) := by
      rw [List.drop_eq_getElem_cons h1, List.getD_eq_getElem c 0 h1]
    have h3 : y ∈ c.drop i := by
      rw [h2]
      exact List.mem_cons_of_mem _ hy
    exact (hcdrop.mem_iff).1 h3
  refine ⟨hclen, hcperm, ?_, ?_⟩
  · rw [hitake, sortedNat_append]
    refine ⟨hsort, List.sorted_singleton _, ?_⟩
    intro x hx y hy
    rcases List.mem_singleton.1 hy with rfl
    exact hbound x hx _ hmiMem
  · intro x hx y hy
    have hyb : y ∈ b.drop i := hdropsub y hy
    rw [hitake] at hx
    rcases List.mem_append.1 hx with hx | hx
    · exact hbound x hx y hyb
    · rcases List.mem_singleton.1 hx with rfl
      rw [mem_drop_iff_getD] at hyb
      obtain ⟨k, hk1, hk2, rfl⟩ := hyb
      exact hminAll k hk1 (by omega)

theorem selection_fold_sorted_perm (n : Nat) (b : List Nat) (hb : b.length = n) :
    List.Sorted (· ≤ ·)
      ((List.range (n - 1)).foldl (fun c i => selStepB c i n) b) ∧
    ((List.range (n - 1)).foldl (fun c i => selStepB c i n) b).Perm b := by
  have main : ∀ i, i ≤ n - 1 →
      (((List.range i).foldl (fun c i => selStepB c i n) b).length = n ∧
       ((List.range i).foldl (fun c i => selStepB c i n) b).Perm b ∧
       List.Sorted (· ≤ ·)
         (((List.range i).foldl (fun c i => selStepB c i n) b).take i) ∧
       ∀ x ∈ ((List.range i).foldl (fun c i => selStepB c i n) b).take i,
         ∀ y ∈ ((List.range i).foldl (fun c i => selStepB c i n) b).drop i,
           x ≤ y) := by
    intro i
    induction i with
    | zero =>
      intro _
      simp only [List.range_zero, List.foldl_nil, List.take_zero]
      exact ⟨hb, List.Perm.refl b, List.sorted_nil, by simp⟩
    | succ i ih =>
      intro hi
      obtain ⟨hlen, hperm, hsort, hbound⟩ := ih (by omega)
      rw [List.range_succ, List.foldl_append]
      simp only [List.foldl_cons, List.foldl_nil]
      set c := (List.range i).foldl (fun c i => selStepB c i n) b with hc
      have hstep := selStep_inv c n i hlen (by omega) hsort hbound
      exact ⟨hstep.1, hstep.2.1.trans hperm, hstep.2.2.1, hstep.2.2.2⟩
  rcases Nat.eq_zero_or_pos n with h0 | hpos
  · subst h0
    have hb2 : b = [] := List.length_eq_zero.1 hb
    subst hb2
    simp
  · obtain ⟨hlen, hperm, hsort, hbound⟩ := main (n - 1) (le_refl _)
    refine ⟨?_, hperm⟩
    set c := (List.range (n - 1)).foldl (fun c i => selStepB c i n) b with hc
    have hsplit : c = c.take (n - 1) ++ c.drop (n - 1) :=
      (List.take_append_drop _ c).symm
    rw [hsplit, sortedNat_append]
    refine ⟨hsort, ?_, hbound⟩
    have h1 : (c.drop (n - 1)).length ≤ 1 := by
      rw [List.length_drop]
      omega
    cases htk : c.drop (n - 1) with
    | nil => exact List.sorted_nil
    | cons a t =>
      rw [htk] at h1
      have h3 : t = [] := by
        cases t with
        | nil => rfl
        | cons u v => simp at h1
      rw [h3]
      exact List.sorted_singleton a

theorem selection_run_bars (n : Nat) (d : Ds) :
    (runList (buildSelection n) d).bars =
      (List.range (n - 1)).foldl (fun c i => selStepB c i n) d.bars := by
  rw [buildSelection, runList_append]
  have h1 : runList [Step.markAll n] (runList ((List.range (n - 1)).map fun i =>
      Step.select i n) d) =
      execStep (Step.markAll n) (runList ((List.range (n - 1)).map fun i =>
      Step.select i n) d) := rfl
  rw [h1, execStep_markAll_bars]
  rw [runList_bars _ (fun stp b =>
    match stp with
    | Step.select i n2 => selStepB b i n2
    | _ => b)]
  · simp only [List.foldl_map]
  · intro stp hstp d2
    rw [List.mem_map] at hstp
    obtain ⟨i, hi, rfl⟩ := hstp
    exact execStep_select_bars i n d2

/-- The full selection sequence sorts the live array and leaves it a
permutation of the start. -/
theorem selection_run_sorted (n : Nat) (d : Ds) (hlen : d.bars.length = n) :
    List.Sorted (· ≤ ·) (runList (buildSelection n) d).bars ∧
      (runList (buildSelection n) d).bars.Perm d.bars := by
  rw [selection_run_bars]
  exact selection_fold_sorted_perm n d.bars hlen

/-! ## Insertion sort correctness -/

theorem getD_set_ne (l : List Nat) (m k v : Nat) (h : m ≠ k) :
    (l.set m v).getD k 0 = l.getD k 0 := by
  rw [List.getD_eq_getElem?_getD, List.getD_eq_getElem?_getD, List.getElem?_set,
    if_neg h]

theorem take_drop_set_of_lt (l : List Nat) (a c m v : Nat) (h : a + c ≤ m) :
    ((l.set m v).drop a).take c = (l.drop a).take c := by
  apply List.ext_getElem?
  intro t
  rw [List.getElem?_take, List.getElem?_take]
  split_ifs with ht
  · rw [List.getElem?_drop, List.getElem?_drop, List.getElem?_set, if_neg (by omega)]
  · rfl

theorem take_getD_succ (l : List Nat) (t : Nat) (h : t < l.length) :
    l.take (t + 1) = l.take t ++ [l.getD t 0] := by
  rw [← List.take_concat_get l t h, List.concat_eq_append, List.getD_eq_getElem l 0 h]

theorem sorted_getD_le (l : List Nat) (h : List.Sorted (· ≤ ·) l) (t s : Nat)
    (hts : t ≤ s) (hs : s < l.length) : l.getD t 0 ≤ l.getD s 0 := by
  rcases Nat.eq_or_lt_of_le hts with rfl | hlt
  · exact le_refl _
  · rw [List.getD_eq_getElem l 0 (by omega), List.getD_eq_getElem l 0 hs]
    exact List.pairwise_iff_getElem.1 h t s (by omega) hs hlt

theorem mem_slice_iff (b : List Nat) (a c y : Nat) :
    y ∈ (b.drop a).take c ↔
      ∃ k, a ≤ k ∧ k < a + c ∧ k < b.length ∧ b.getD k 0 = y := by
  rw [List.mem_iff_getElem?]
  constructor
  · rintro ⟨t, ht⟩
    rw [List.getElem?_take] at ht
    split_ifs at ht with htc
    · rw [List.getElem?_drop] at ht
      have hlt : a + t < b.length := by
        by_contra hcon
        rw [List.getElem?_eq_none (by omega)] at ht
        exact Option.noConfusion ht
      refine ⟨a + t, by omega, by omega, hlt, ?_⟩
      rw [List.getD_eq_getElem?_getD, ht]
      rfl
  · rintro ⟨k, hk1, hk2, hk3, hval⟩
    refine ⟨k - a, ?_⟩
    rw [List.getElem?_take, if_pos (by omega), List.getElem?_drop]
    have h3 : a + (k - a) = k := by omega
    rw [h3, List.getElem?_eq_getElem hk3]
    rw [List.getD_eq_getElem b 0 hk3] at hval
    rw [hval]

theorem insLoopB_spec (b : List Nat) (key jj : Nat) (hjj : jj < b.length) :
    (insLoopB b key jj).2 ≤ jj ∧
    (insLoopB b key jj).1 =
      b.take ((insLoopB b key jj).2 + 1) ++
        (b.drop (insLoopB b key jj).2).take (jj - (insLoopB b key jj).2) ++
        b.drop (jj + 1) ∧
    (∀ k, (insLoopB b key jj).2 ≤ k → k < jj → key < b.getD k 0) ∧
    ((insLoopB b key jj).2 = 0 ∨ b.getD ((insLoopB b key jj).2 - 1) 0 ≤ key) := by
  induction b, key, jj using insLoopB.induct with
  | case1 b key jj hg ih =>
    obtain ⟨hg1, hg2⟩ := hg
    have heq : insLoopB b key jj = insLoopB (b.set jj (b.getD (jj - 1) 0)) key (jj - 1) := by
      rw [insLoopB, if_pos ⟨hg1, hg2⟩]
    rw [heq]
    have hlen1 : jj - 1 < (b.set jj (b.getD (jj - 1) 0)).length := by
      rw [List.length_set]
      omega
    obtain ⟨ih1, ih2, ih3, ih4⟩ := ih hlen1
    set b1 := b.set jj (b.getD (jj - 1) 0) with hb1
    set jj2 := (insLoopB b1 key (jj - 1)).2 with hjj2
    refine ⟨by omega, ?_, ?_, ?_⟩
    · rw [ih2]
      have e1 : b1.take (jj2 + 1) = b.take (jj2 + 1) := by
        rw [hb1, take_set_of_le _ _ _ _ (by omega)]
      have e2 : (b1.drop jj2).take (jj - 1 - jj2) = (b.drop jj2).take (jj - 1 - jj2) := by
        rw [hb1, take_drop_set_of_lt _ _ _ _ _ (by omega)]
      have e3 : b1.drop (jj - 1 + 1) = b.getD (jj - 1) 0 :: b.drop (jj + 1) := by
        have h4 : jj - 1 + 1 = jj := by omega
        rw [hb1, h4, List.drop_set, if_neg (by omega), Nat.sub_self]
        have h5 : b.drop jj = b[jj] :: b.drop (jj + 1) :=
          List.drop_eq_getElem_cons hjj
        rw [h5, List.set_cons_zero]
      have e4 : (b.drop jj2).take (jj - jj2) =
          (b.drop jj2).take (jj - 1 - jj2) ++ [b.getD (jj - 1) 0] := by
        have h6 : jj - jj2 = (jj - 1 - jj2) + 1 := by omega
        rw [h6, take_getD_succ _ _ (by rw [List.length_drop]; omega)]
        congr 2
        rw [List.getD_eq_getElem?_getD, List.getD_eq_getElem?_getD, List.getElem?_drop]
        have h7 : jj2 + (jj - 1 - jj2) = jj - 1 := by omega
        rw [h7]
      rw [e1, e2, e3, e4]
      simp only [List.append_assoc, List.cons_append, List.nil_append]
    · intro k hk1 hk2
      rcases Nat.lt_or_ge k (jj - 1) with hk3 | hk3
      · have h8 := ih3 k hk1 hk3
        rw [hb1, getD_set_ne _ _ _ _ (by omega)] at h8
        exact h8
      · have hkeq : k = jj - 1 := by omega
        rw [hkeq]
        exact hg2
    · rcases ih4 with h | h
      · exact Or.inl h
      · right
        rw [hb1, getD_set_ne _ _ _ _ (by omega)] at h
        exact h
  | case2 b key jj hg =>
    have heq : insLoopB b key jj = (b, jj) := by
      rw [insLoopB, if_neg hg]
    rw [heq]
    dsimp only
    push_neg at hg
    refine ⟨le_refl _, ?_, by omega, ?_⟩
    · simp only [Nat.sub_self, List.take_zero, List.append_nil]
      exact (List.take_append_drop _ b).symm
    · rcases Nat.eq_zero_or_pos jj with h0 | hpos
      · exact Or.inl h0
      · exact Or.inr (by have := hg hpos; omega)

theorem getD_take_of_lt (l : List Nat) (i t : Nat) (h : t < i) :
    (l.take i).getD t 0 = l.getD t 0 := by
  rw [List.getD_eq_getElem?_getD, List.getD_eq_getElem?_getD, List.getElem?_take,
    if_pos h]

theorem insStep_inv (n : Nat) (b : List Nat) (i : Nat) (hlen : b.length = n)
    (hi : i < n) (hsort : List.Sorted (· ≤ ·) (b.take i)) :
    (insStepB b i).length = n ∧ (insStepB b i).Perm b ∧
      List.Sorted (· ≤ ·) ((insStepB b i).take (i + 1)) ∧
      (insStepB b i).drop (i + 1) = b.drop (i + 1) := by
  have hjj : i < b.length := by omega
  obtain ⟨h1, h2, h3, h4⟩ := insLoopB_spec b (b.getD i 0) i hjj
  set key := b.getD i 0 with hkey
  set jj2 := (insLoopB b key i).2 with hjj2
  have hform : insStepB b i =
      b.take jj2 ++ [key] ++ (b.drop jj2).take (i - jj2) ++ b.drop (i + 1) := by
    rw [insStepB, ← hkey, ← hjj2, h2]
    rw [List.set_append, if_pos (by
      rw [List.length_append, List.length_take]
      have h9 : jj2 + 1 ≤ b.length := by omega
      simp [List.length_take]
      omega)]
    rw [List.set_append, if_pos (by rw [List.length_take]; omega)]
    have h5 : (b.take (jj2 + 1)).length - 1 = jj2 := by
      rw [List.length_take]
      omega
    have h6 := set_last_eq (b.take (jj2 + 1)) key (by
      intro hc
      have h10 : (b.take (jj2 + 1)).length = 0 := by rw [hc]; rfl
      rw [List.length_take] at h10
      omega)
    rw [h5] at h6
    rw [h6]
    have h7 : (b.take (jj2 + 1)).dropLast = b.take jj2 := by
      rw [List.dropLast_eq_take, List.length_take, List.take_take]
      congr 1
      omega
    rw [h7]
  have hmidlen : ((b.drop jj2).take (i - jj2)).length = i - jj2 := by
    rw [List.length_take, List.length_drop]
    omega
  have hfrontlen : ((b.take jj2 ++ [key]) ++ (b.drop jj2).take (i - jj2)).length = i + 1 := by
    rw [List.length_append, List.length_append, List.length_take, hmidlen]
    simp
    omega
  have htakei : b.take i = b.take jj2 ++ (b.drop jj2).take (i - jj2) := by
    have h8 : i = jj2 + (i - jj2) := by omega
    conv_lhs => rw [h8]
    rw [List.take_add]
  have hmidmem : ∀ y ∈ (b.drop jj2).take (i - jj2),
      ∃ s, jj2 ≤ s ∧ s < i ∧ b.getD s 0 = y := by
    intro y hy
    rw [mem_slice_iff] at hy
    obtain ⟨s, hs1, hs2, hs3, hs4⟩ := hy
    exact ⟨s, hs1, by omega, hs4⟩
  have htmem : ∀ x ∈ b.take jj2, ∃ t, t < jj2 ∧ b.getD t 0 = x := by
    intro x hx
    rw [List.mem_take_iff_getElem] at hx
    obtain ⟨t, ht, hval⟩ := hx
    have ht2 : t < jj2 := lt_of_lt_of_le ht inf_le_left
    have ht3 : t < b.length := lt_of_lt_of_le ht inf_le_right
    exact ⟨t, ht2, by rw [List.getD_eq_getElem b 0 ht3]; exact hval⟩
  have hsorti : ∀ t s, t ≤ s → s < i → b.getD t 0 ≤ b.getD s 0 := by
    intro t s hts hsi
    have h11 : (b.take i).getD t 0 ≤ (b.take i).getD s 0 := by
      apply sorted_getD_le _ hsort t s hts
      rw [List.length_take]
      omega
    rw [getD_take_of_lt _ _ _ (by omega), getD_take_of_lt _ _ _ hsi] at h11
    exact h11
  have hxkey : ∀ x ∈ b.take jj2, x ≤ key := by
    intro x hx
    obtain ⟨t, ht, rfl⟩ := htmem x hx
    rcases h4 with h40 | h41
    · omega
    · exact le_trans (hsorti t (jj2 - 1) (by omega) (by omega)) h41
  refine ⟨?_, ?_, ?_, ?_⟩
  · rw [hform, List.length_append, List.length_append, List.length_append,
      List.length_take, hmidlen, List.length_drop]
    simp
    omega
  · rw [hform]
    have hb : b = b.take jj2 ++ (b.drop jj2).take (i - jj2) ++ [key] ++ b.drop (i + 1) := by
      conv_lhs => rw [← List.take_append_drop (i + 1) b]
      rw [take_getD_succ b i hjj, ← hkey, htakei]
    conv_rhs => rw [hb]
    simp only [List.append_assoc]
    apply List.Perm.append_left
    rw [← List.append_assoc, ← List.append_assoc]
    exact List.perm_append_comm.append_right _
  · rw [hform, List.take_left' hfrontlen]
    rw [sortedNat_append]
    refine ⟨?_, ?_, ?_⟩
    · rw [sortedNat_append]
      refine ⟨?_, List.sorted_singleton _, ?_⟩
      · have h12 : b.take jj2 = (b.take i).take jj2 := by
          rw [List.take_take]
          congr 1
          omega
        rw [h12]
        exact List.Pairwise.sublist (List.take_sublist _ _) hsort
      · intro x hx y hy
        rcases List.mem_singleton.1 hy with rfl
        exact hxkey x hx
    · have h13 : (b.drop jj2).take (i - jj2) = (b.take i).drop jj2 := by
        rw [List.drop_take]
      rw [h13]
      exact List.Pairwise.sublist (List.drop_sublist _ _) hsort
    · intro x hx y hy
      obtain ⟨s, hs1, hs2, rfl⟩ := hmidmem y hy
      rcases List.mem_append.1 hx with hx | hx
      · obtain ⟨t, ht, rfl⟩ := htmem x hx
        exact hsorti t s (by omega) hs2
      · rcases List.mem_singleton.1 hx with rfl
        exact le_of_lt (h3 s hs1 hs2)
  · rw [hform]
    exact List.drop_left' hfrontlen

theorem insertion_fold_sorted_perm (n : Nat) (b : List Nat) (hb : b.length = n) :
    List.Sorted (· ≤ ·)
      ((List.range' 1 (n - 1)).foldl (fun c i => insStepB c i) b) ∧
    ((List.range' 1 (n - 1)).foldl (fun c i => insStepB c i) b).Perm b := by
  rcases Nat.eq_zero_or_pos n with h0 | hpos
  · subst h0
    have hb2 : b = [] := List.length_eq_zero.1 hb
    subst hb2
    simp
  · have main : ∀ m, m ≤ n - 1 →
        (((List.range' 1 m).foldl (fun c i => insStepB c i) b).length = n ∧
         ((List.range' 1 m).foldl (fun c i => insStepB c i) b).Perm b ∧
         List.Sorted (· ≤ ·)
           (((List.range' 1 m).foldl (fun c i => insStepB c i) b).take (m + 1))) := by
      intro m
      induction m with
      | zero =>
        intro _
        simp only [List.range'_zero, List.foldl_nil]
        refine ⟨hb, List.Perm.refl b, ?_⟩
        cases htk : b.take 1 with
        | nil => exact List.sorted_nil
        | cons a t =>
          have h2 := congrArg List.length htk
          rw [List.length_take] at h2
          have h3 : t = [] := by
            cases t with
            | nil => rfl
            | cons u v =>
              simp at h2
              omega
          rw [h3]
          exact List.sorted_singleton a
      | succ m ih =>
        intro hm
        obtain ⟨hlen, hperm, hsort⟩ := ih (by omega)
        have hconcat : List.range' 1 (m + 1) = List.range' 1 m ++ [1 + m] := by
          have := @List.range'_concat 1 1 m
          simpa using this
        rw [hconcat, List.foldl_append]
        simp only [List.foldl_cons, List.foldl_nil]
        set c := (List.range' 1 m).foldl (fun c i => insStepB c i) b with hc
        have hstep := insStep_inv n c (1 + m) hlen (by omega) (by
          have h5 : 1 + m = m + 1 := by omega
          rw [h5]
          exact hsort)
        have h6 : 1 + m + 1 = m + 1 + 1 := by omega
        rw [h6] at hstep
        exact ⟨hstep.1, hstep.2.1.trans hperm, hstep.2.2.1⟩
    obtain ⟨hlen, hperm, hsort⟩ := main (n - 1) (le_refl _)
    refine ⟨?_, hperm⟩
    have h7 : n - 1 + 1 = n := by omega
    rw [h7] at hsort
    have h8 : ((List.range' 1 (n - 1)).foldl (fun c i => insStepB c i) b).take n =
        (List.range' 1 (n - 1)).foldl (fun c i => insStepB c i) b :=
      List.take_of_length_le (by omega)
    rw [h8] at hsort
    exact hsort

theorem insertion_run_bars (n : Nat) (d : Ds) :
    (runList (buildInsertion n) d).bars =
      (List.range' 1 (n - 1)).foldl (fun c i => insStepB c i) d.bars := by
  rw [buildInsertion, runList_append]
  have h1 : runList [Step.markAll n] (runList ((List.range' 1 (n - 1)).map fun i =>
      Step.insert i) d) =
      execStep (Step.markAll n) (runList ((List.range' 1 (n - 1)).map fun i =>
      Step.insert i) d) := rfl
  rw [h1, execStep_markAll_bars]
  rw [runList_bars _ (fun stp b =>
    match stp with
    | Step.insert i => insStepB b i
    | _ => b)]
  · simp only [List.foldl_map]
  · intro stp hstp d2
    rw [List.mem_map] at hstp
    obtain ⟨i, hi, rfl⟩ := hstp
    exact execStep_insert_bars i d2

/-- The full insertion sequence sorts the live array and leaves it a
permutation of the start. -/
theorem insertion_run_sorted (n : Nat) (d : Ds) (hlen : d.bars.length = n) :
    List.Sorted (· ≤ ·) (runList (buildInsertion n) d).bars ∧
      (runList (buildInsertion n) d).bars.Perm d.bars := by
  rw [insertion_run_bars]
  exact insertion_fold_sorted_perm n d.bars hlen

/-! ## Merge sort correctness -/

theorem drop_append_ge (A B : List Nat) (k : Nat) (h : A.length ≤ k) :
    (A ++ B).drop k = B.drop (k - A.length) := by
  have h2 : k = A.length + (k - A.length) := by omega
  rw [h2, List.drop_append]
  congr 1
  omega

theorem sorted_of_length_le_one (l : List Nat) (h : l.length ≤ 1) :
    List.Sorted (· ≤ ·) l := by
  cases l with
  | nil => exact List.sorted_nil
  | cons a t =>
    cases t with
    | nil => exact List.sorted_singleton a
    | cons u v => simp at h

theorem mergeL_perm (xs ys : List Nat) : (mergeL xs ys).Perm (xs ++ ys) := by
  induction xs, ys using mergeL.induct with
  | case1 ys => simp [mergeL]
  | case2 x xs => simp [mergeL]
  | case3 x xs y ys h ih =>
    simp only [mergeL, if_pos h]
    exact ih.cons x
  | case4 x xs y ys h ih =>
    simp only [mergeL, if_neg h]
    exact (ih.cons y).trans (@List.perm_middle _ y (x :: xs) ys).symm

theorem mergeL_nil_right (xs : List Nat) : mergeL xs [] = xs := by
  cases xs <;> simp [mergeL]

theorem mergeL_sorted (xs ys : List Nat) (hx : List.Sorted (· ≤ ·) xs)
    (hy : List.Sorted (· ≤ ·) ys) : List.Sorted (· ≤ ·) (mergeL xs ys) := by
  induction xs, ys using mergeL.induct with
  | case1 ys => simpa [mergeL] using hy
  | case2 x xs => simpa [mergeL] using hx
  | case3 x xs y ys h ih =>
    simp only [mergeL, if_pos h]
    rw [List.sorted_cons] at hx ⊢
    refine ⟨?_, ih hx.2 hy⟩
    intro b hb
    have hmem := (mergeL_perm xs (y :: ys)).mem_iff.1 hb
    rcases List.mem_append.1 hmem with hmem | hmem
    · exact hx.1 b hmem
    · rcases List.mem_cons.1 hmem with rfl | hmem
      · exact h
      · rw [List.sorted_cons] at hy
        exact le_trans h (hy.1 b hmem)
  | case4 x xs y ys h ih =>
    simp only [mergeL, if_neg h]
    rw [List.sorted_cons] at hy ⊢
    push_neg at h
    refine ⟨?_, ih hx hy.2⟩
    intro b hb
    have hmem := (mergeL_perm (x :: xs) ys).mem_iff.1 hb
    rcases List.mem_append.1 hmem with hmem | hmem
    · rcases List.mem_cons.1 hmem with rfl | hmem
      · exact le_of_lt h
      · rw [List.sorted_cons] at hx
        exact le_trans (le_of_lt h) (hx.1 b hmem)
    · exact hy.1 b hmem

theorem slice_cons (tmp : List Nat) (a c : Nat) (ha : a < tmp.length) :
    (tmp.drop a).take (c + 1) = tmp.getD a 0 :: (tmp.drop (a + 1)).take c := by
  rw [List.drop_eq_getElem_cons ha, List.take_succ_cons, List.getD_eq_getElem _ 0 ha]

theorem mergeLoop_eq_mergeL (tmp : List Nat) (mm rr : Nat) (hmm : mm < tmp.length)
    (hrr : rr < tmp.length) (i2 j2 cc ss : Nat) :
    (mergeLoop tmp mm rr i2 j2 cc ss).1 =
      mergeL ((tmp.drop i2).take (mm + 1 - i2)) ((tmp.drop j2).take (rr + 1 - j2)) := by
  induction i2, j2, cc, ss using mergeLoop.induct tmp mm rr with
  | case1 i2 j2 cc ss hg cc1 hle ih =>
    have heq : (mergeLoop tmp mm rr i2 j2 cc ss).1 =
        tmp.getD i2 0 :: (mergeLoop tmp mm rr (i2 + 1) j2 (cc + 1) ss).1 := by
      rw [mergeLoop]
      simp only [if_pos hg, if_pos hle]
    rw [heq, ih]
    have hsl1 : (tmp.drop i2).take (mm + 1 - i2) =
        tmp.getD i2 0 :: (tmp.drop (i2 + 1)).take (mm + 1 - (i2 + 1)) := by
      have h2 : mm + 1 - i2 = (mm + 1 - (i2 + 1)) + 1 := by omega
      rw [h2, slice_cons tmp i2 _ (by omega)]
    have hsl2 : (tmp.drop j2).take (rr + 1 - j2) =
        tmp.getD j2 0 :: (tmp.drop (j2 + 1)).take (rr + 1 - (j2 + 1)) := by
      have h2 : rr + 1 - j2 = (rr + 1 - (j2 + 1)) + 1 := by omega
      rw [h2, slice_cons tmp j2 _ (by omega)]
    rw [hsl1]
    conv_rhs => rw [hsl2]
    rw [mergeL, if_pos hle, ← hsl2]
  | case2 i2 j2 cc ss hg cc1 hle ih =>
    have heq : (mergeLoop tmp mm rr i2 j2 cc ss).1 =
        tmp.getD j2 0 :: (mergeLoop tmp mm rr i2 (j2 + 1) (cc + 1) (ss + 1)).1 := by
      rw [mergeLoop]
      simp only [if_pos hg, if_neg hle]
    rw [heq, ih]
    have hsl1 : (tmp.drop i2).take (mm + 1 - i2) =
        tmp.getD i2 0 :: (tmp.drop (i2 + 1)).take (mm + 1 - (i2 + 1)) := by
      have h2 : mm + 1 - i2 = (mm + 1 - (i2 + 1)) + 1 := by omega
      rw [h2, slice_cons tmp i2 _ (by omega)]
    have hsl2 : (tmp.drop j2).take (rr + 1 - j2) =
        tmp.getD j2 0 :: (tmp.drop (j2 + 1)).take (rr + 1 - (j2 + 1)) := by
      have h2 : rr + 1 - j2 = (rr + 1 - (j2 + 1)) + 1 := by omega
      rw [h2, slice_cons tmp j2 _ (by omega)]
    rw [hsl2]
    conv_rhs => rw [hsl1]
    rw [mergeL, if_neg hle, ← hsl1]
  | case3 i2 j2 cc ss hg =>
    have heq : (mergeLoop tmp mm rr i2 j2 cc ss).1 =
        (tmp.drop i2).take (mm + 1 - i2) ++ (tmp.drop j2).take (rr + 1 - j2) := by
      rw [mergeLoop]
      simp only [if_neg hg]
    rw [heq]
    rcases Decidable.not_and_iff_or_not.1 hg with hc | hc
    · have h2 : mm + 1 - i2 = 0 := by omega
      rw [h2]
      simp [mergeL]
    · have h2 : rr + 1 - j2 = 0 := by omega
      rw [h2]
      simp [mergeL_nil_right]

theorem mergeStep_spec (b : List Nat) (l m r : Nat) (hlm : l ≤ m) (hmr : m < r)
    (hr : r < b.length) :
    mergeStepB b l m r =
      b.take l ++ mergeL ((b.drop l).take (m + 1 - l)) ((b.drop (m + 1)).take (r - m)) ++
        b.drop (r + 1) ∧
    (mergeStepB b l m r).length = b.length ∧ (mergeStepB b l m r).Perm b := by
  have htmplen : ((b.drop l).take (r + 1 - l)).length = r + 1 - l := by
    rw [List.length_take, List.length_drop]
    omega
  set tmp := (b.drop l).take (r + 1 - l) with htmp
  have hout : (mergeLoop tmp (m - l) (r - l) 0 (m - l + 1) 0 0).1 =
      mergeL ((b.drop l).take (m + 1 - l)) ((b.drop (m + 1)).take (r - m)) := by
    rw [mergeLoop_eq_mergeL tmp (m - l) (r - l) (by omega) (by omega)]
    congr 1
    · rw [htmp, List.drop_zero, List.take_take]
      congr 1
      omega
    · rw [htmp, List.drop_take, List.drop_drop]
      have h3 : l + (m - l + 1) = m + 1 := by omega
      rw [h3, List.take_take]
      congr 1
      omega
  have houtlen : (mergeL ((b.drop l).take (m + 1 - l)) ((b.drop (m + 1)).take (r - m))).length
      = r + 1 - l := by
    rw [(mergeL_perm _ _).length_eq, List.length_append, List.length_take,
      List.length_take, List.length_drop, List.length_drop]
    omega
  have hform : mergeStepB b l m r =
      b.take l ++ mergeL ((b.drop l).take (m + 1 - l)) ((b.drop (m + 1)).take (r - m)) ++
        b.drop (r + 1) := by
    rw [mergeStepB, ← htmp, hout, writeAt, houtlen]
    have h4 : l + (r + 1 - l) = r + 1 := by omega
    rw [h4, List.append_assoc]
  refine ⟨hform, ?_, ?_⟩
  · rw [hform, List.length_append, List.length_append, houtlen, List.length_take,
      List.length_drop]
    omega
  · rw [hform]
    have hdec : b = b.take l ++ ((b.drop l).take (m + 1 - l) ++
        (b.drop (m + 1)).take (r - m)) ++ b.drop (r + 1) := by
      have h5 : (b.drop l).take (m + 1 - l) ++ (b.drop (m + 1)).take (r - m) =
          (b.drop l).take (r + 1 - l) := by
        have h6 : r + 1 - l = (m + 1 - l) + (r - m) := by omega
        rw [h6, List.take_add]
        congr 2
        rw [List.drop_drop]
        congr 1
        omega
      rw [h5]
      have h7 : (b.drop l).take (r + 1 - l) ++ b.drop (r + 1) = b.drop l := by
        have h8 : b.drop (r + 1) = (b.drop l).drop (r + 1 - l) := by
          rw [List.drop_drop]
          congr 1
          omega
        rw [h8]
        exact List.take_append_drop _ _
      rw [List.append_assoc, h7, List.take_append_drop]
    conv_rhs => rw [hdec]
    simp only [List.append_assoc]
    apply List.Perm.append_left
    have h9 := (mergeL_perm ((b.drop l).take (m + 1 - l))
      ((b.drop (m + 1)).take (r - m))).append_right (b.drop (r + 1))
    rw [List.append_assoc] at h9
    exact h9

theorem chunkSorted_shift (w : Nat) (b : List Nat) (i : Nat)
    (h : ChunkSorted w (b.drop i)) : ChunkSorted w (b.drop (i + 2 * w)) := by
  intro k
  have h2 := h (k + 2)
  rw [List.drop_drop] at h2 ⊢
  have h4 : (k + 2) * w = k * w + 2 * w := Nat.add_mul k 2 w
  have h3 : i + 2 * w + k * w = i + (k + 2) * w := by omega
  rw [h3]
  exact h2

theorem chunkSorted_one (b : List Nat) : ChunkSorted 1 b := by
  intro k
  apply sorted_of_length_le_one
  rw [List.length_take]
  omega

theorem mergeInner_merge_only (n w : Nat) (hw : 0 < w) (i : Nat) :
    ∀ stp ∈ mergeInner n w hw i, ∃ l m r, stp = Step.merge l m r := by
  induction i using mergeInner.induct n w hw with
  | case1 i hi ih =>
    intro stp hstp
    rw [mergeInner] at hstp
    rw [dif_pos hi] at hstp
    rcases List.mem_append.1 hstp with h | h
    · split_ifs at h
      · simp at h
      · rcases List.mem_singleton.1 h with rfl
        exact ⟨_, _, _, rfl⟩
    · exact ih stp h
  | case2 i hi =>
    intro stp hstp
    rw [mergeInner, dif_neg hi] at hstp
    simp at hstp

theorem mergeInner_inv (n w : Nat) (hw : 0 < w) (i : Nat) :
    ∀ b : List Nat, b.length = n → ChunkSorted w (b.drop i) →
      (((mergeInner n w hw i).foldl (fun c stp => mergeB stp c) b).length = n ∧
       ((mergeInner n w hw i).foldl (fun c stp => mergeB stp c) b).Perm b ∧
       ((mergeInner n w hw i).foldl (fun c stp => mergeB stp c) b).take i = b.take i ∧
       ChunkSorted (2 * w) (((mergeInner n w hw i).foldl (fun c stp => mergeB stp c) b).drop i)) := by
  induction i using mergeInner.induct n w hw with
  | case2 i hi =>
    intro b hlen hcs
    rw [mergeInner, dif_neg hi]
    simp only [List.foldl_nil]
    refine ⟨hlen, List.Perm.refl b, by trivial, ?_⟩
    intro k
    have hnil : b.drop i = [] := List.drop_eq_nil_of_le (by omega)
    rw [hnil]
    simp
  | case1 i hi ih =>
    intro b hlen hcs
    rw [mergeInner, dif_pos hi]
    rw [List.foldl_append]
    by_cases hrm : min (i + 2 * w - 1) (n - 1) ≤ min (i + w - 1) (n - 1)
    · rw [if_pos hrm]
      simp only [List.foldl_nil]
      have hnw : n ≤ i + w := by omega
      have hcs2 : ChunkSorted w (b.drop (i + 2 * w)) := chunkSorted_shift w b i hcs
      obtain ⟨rlen, rperm, rtake, rchunk⟩ := ih b hlen hcs2
      set res := (mergeInner n w hw (i + 2 * w)).foldl (fun c stp => mergeB stp c) b
        with hres
      have hresb : res = b := by
        have h1 : res.take (i + 2 * w) = res := List.take_of_length_le (by omega)
        have h2 : b.take (i + 2 * w) = b := List.take_of_length_le (by omega)
        rw [h1, h2] at rtake
        exact rtake
      rw [hresb]
      refine ⟨hlen, List.Perm.refl b, rfl, ?_⟩
      intro k
      cases k with
      | zero =>
        have h3 : (b.drop i).length ≤ w := by
          rw [List.length_drop]
          omega
        simp only [Nat.zero_mul, List.drop_zero]
        rw [List.take_of_length_le (by omega)]
        have h5 := hcs 0
        simp only [Nat.zero_mul, List.drop_zero] at h5
        rw [List.take_of_length_le (by omega)] at h5
        exact h5
      | succ k =>
        have h4 : (b.drop i).drop ((k + 1) * (2 * w)) = [] := by
          apply List.drop_eq_nil_of_le
          rw [List.length_drop]
          have h6 : 2 * w ≤ (k + 1) * (2 * w) := by
            have := Nat.add_mul k 1 (2 * w)
            omega
          omega
        rw [h4]
        simp
    · rw [if_neg hrm]
      simp only [List.foldl_cons]
      push_neg at hrm
      set m := min (i + w - 1) (n - 1) with hm
      set r := min (i + 2 * w - 1) (n - 1) with hr
      have hnpos : 0 < n := by omega
      have hmval : m = i + w - 1 := by omega
      have hiw : i + w ≤ n := by omega
      have hlm : i ≤ m := by omega
      have hrn : r < n := by omega
      have hb1 : mergeB (Step.merge i m r) b = mergeStepB b i m r := rfl
      rw [hb1]
      obtain ⟨bform, blen, bperm⟩ := mergeStep_spec b i m r hlm hrm (by omega)
      set M := mergeL ((b.drop i).take (m + 1 - i)) ((b.drop (m + 1)).take (r - m))
        with hM
      have hS1 : (b.drop i).take (m + 1 - i) = (b.drop i).take w := by
        congr 1
        omega
      have hS1sorted : List.Sorted (· ≤ ·) ((b.drop i).take (m + 1 - i)) := by
        rw [hS1]
        have h5 := hcs 0
        simpa using h5
      have hS2sorted : List.Sorted (· ≤ ·) ((b.drop (m + 1)).take (r - m)) := by
        have h6 := hcs 1
        simp only [Nat.one_mul] at h6
        rw [List.drop_drop] at h6
        have h7 : i + w = m + 1 := by omega
        rw [h7] at h6
        have h8 : (b.drop (m + 1)).take (r - m) =
            ((b.drop (m + 1)).take w).take (r - m) := by
          rw [List.take_take]
          congr 1
          omega
        rw [h8]
        exact List.Pairwise.sublist (List.take_sublist _ _) h6
      have hMsorted : List.Sorted (· ≤ ·) M :=
        mergeL_sorted _ _ hS1sorted hS2sorted
      have hMlen : M.length = r + 1 - i := by
        rw [hM, (mergeL_perm _ _).length_eq, List.length_append, List.length_take,
          List.length_take, List.length_drop, List.length_drop]
        omega
      set b1 := mergeStepB b i m r with hb1d
      have hb1len : b1.length = n := by rw [blen, hlen]
      have hfr : (b.take i ++ M).length = r + 1 := by
        rw [List.length_append, List.length_take, hMlen]
        omega
      have hbform2 : b1 = (b.take i ++ M) ++ b.drop (r + 1) := bform
      have hb1drop : b1.drop (i + 2 * w) = b.drop (i + 2 * w) := by
        rw [hbform2, drop_append_ge _ _ _ (by omega), hfr, List.drop_drop]
        congr 1
        omega
      have hb1take : b1.take i = b.take i := by
        rw [hbform2, List.take_append_of_le_length (by omega),
          List.take_append_of_le_length (by rw [List.length_take]; omega),
          List.take_take]
        congr 1
        omega
      have hcs2 : ChunkSorted w (b1.drop (i + 2 * w)) := by
        rw [hb1drop]
        exact chunkSorted_shift w b i hcs
      obtain ⟨rlen, rperm, rtake, rchunk⟩ := ih b1 hb1len hcs2
      set res := (mergeInner n w hw (i + 2 * w)).foldl (fun c stp => mergeB stp c) b1
        with hres
      simp only [List.foldl_nil]
      rw [← hres]
      refine ⟨rlen, rperm.trans bperm, ?_, ?_⟩
      · have h9 : res.take i = (res.take (i + 2 * w)).take i := by
          rw [List.take_take]
          congr 1
          omega
        rw [h9, rtake, List.take_take, Nat.min_eq_left (by omega), hb1take]
      · intro k
        cases k with
        | zero =>
          simp only [Nat.zero_mul, List.drop_zero]
          have h10 : (res.drop i).take (2 * w) = (res.take (i + 2 * w)).drop i := by
            rw [List.drop_take]
            congr 1
            omega
          rw [h10, rtake]
          have hDnil : (b.drop (r + 1)).take (i + 2 * w - (r + 1)) = [] := by
            rcases Nat.lt_or_ge r (n - 1) with hcase | hcase
            · have h11 : r = i + 2 * w - 1 := by omega
              have h12 : i + 2 * w - (r + 1) = 0 := by omega
              rw [h12, List.take_zero]
            · have h11 : r = n - 1 := by omega
              have h12 : b.drop (r + 1) = [] := by
                apply List.drop_eq_nil_of_le
                omega
              rw [h12, List.take_nil]
          have h13 : b1.take (i + 2 * w) = (b.take i ++ M) ++ [] := by
            rw [hbform2, List.take_append_eq_append_take,
              List.take_of_length_le (by omega), hfr, hDnil]
          rw [h13, List.append_nil, List.drop_left' (by rw [List.length_take]; omega)]
          exact hMsorted
        | succ k =>
          have h14 : (res.drop i).drop ((k + 1) * (2 * w)) =
              (res.drop (i + 2 * w)).drop (k * (2 * w)) := by
            rw [List.drop_drop, List.drop_drop]
            congr 1
            have := Nat.add_mul k 1 (2 * w)
            omega
          rw [h14]
          exact rchunk k

theorem mergePasses_inv (n : Nat) (w : Nat) (hw : 0 < w) :
    ∀ b : List Nat, b.length = n → ChunkSorted w b →
      List.Sorted (· ≤ ·) ((mergePasses n w hw).foldl (fun c stp => mergeB stp c) b) ∧
      ((mergePasses n w hw).foldl (fun c stp => mergeB stp c) b).Perm b := by
  induction w, hw using mergePasses.induct n with
  | case1 w hw hwn ih =>
    intro b hlen hcs
    rw [mergePasses, dif_pos hwn, List.foldl_append]
    have hcs0 : ChunkSorted w (b.drop 0) := by
      rw [List.drop_zero]
      exact hcs
    obtain ⟨rlen, rperm, rtake, rchunk⟩ := mergeInner_inv n w hw 0 b hlen hcs0
    rw [List.drop_zero] at rchunk
    obtain ⟨hsorted, hperm⟩ := ih _ rlen rchunk
    exact ⟨hsorted, hperm.trans rperm⟩
  | case2 w hw hwn =>
    intro b hlen hcs
    rw [mergePasses, dif_neg hwn]
    simp only [List.foldl_nil]
    refine ⟨?_, List.Perm.refl b⟩
    have h1 := hcs 0
    simp only [Nat.zero_mul, List.drop_zero] at h1
    rw [List.take_of_length_le (by omega)] at h1
    exact h1

theorem merge_run_bars (n : Nat) (d : Ds) :
    (runList (buildMerge n) d).bars =
      (mergePasses n 1 (by omega)).foldl (fun c stp => mergeB stp c) d.bars := by
  rw [buildMerge, runList_append]
  have h1 : runList [Step.markAll n] (runList (mergePasses n 1 (by omega)) d) =
      execStep (Step.markAll n) (runList (mergePasses n 1 (by omega)) d) := rfl
  rw [h1, execStep_markAll_bars]
  rw [runList_bars _ mergeB]
  intro stp hstp d2
  have hpass : ∀ w hw, ∀ stp ∈ mergePasses n w hw, ∃ l m r, stp = Step.merge l m r := by
    intro w hw
    induction w, hw using mergePasses.induct n with
    | case1 w hw hwn ih =>
      intro stp hstp
      rw [mergePasses, dif_pos hwn] at hstp
      rcases List.mem_append.1 hstp with h | h
      · exact mergeInner_merge_only n w hw 0 stp h
      · exact ih stp h
    | case2 w hw hwn =>
      intro stp hstp
      rw [mergePasses, dif_neg hwn] at hstp
      simp at hstp
  obtain ⟨l, m, r, rfl⟩ := hpass 1 (by omega) stp hstp
  exact execStep_merge_bars l m r d2

/-- The full merge sequence sorts the live array and leaves it a permutation
of the start. -/
theorem merge_run_sorted (n : Nat) (d : Ds) (hlen : d.bars.length = n) :
    List.Sorted (· ≤ ·) (runList (buildMerge n) d).bars ∧
      (runList (buildMerge n) d).bars.Perm d.bars := by
  rw [merge_run_bars]
  exact mergePasses_inv n 1 (by omega) d.bars hlen (chunkSorted_one d.bars)

/-! ## Quick sort: the shadow simulation -/

theorem qgenLoop_bounds (arr : List Nat) (pivot j r i4 : Nat) :
    i4 ≤ (qgenLoop arr pivot j r i4).2 ∧
      (qgenLoop arr pivot j r i4).2 ≤ i4 + (r - j) := by
  induction arr, pivot, j, r, i4 using qgenLoop.induct with
  | case1 arr pivot j r i4 hj hle ih =>
    rw [qgenLoop, if_pos hj, if_pos hle]
    omega
  | case2 arr pivot j r i4 hj hle ih =>
    rw [qgenLoop, if_pos hj, if_neg hle]
    omega
  | case3 arr pivot j r i4 hj =>
    rw [qgenLoop, if_neg hj]
    omega

theorem qgenLoop_spec (arr : List Nat) (pivot : Nat) (j r i4 : Nat) :
    i4 ≤ j → j ≤ r → r < arr.length →
    (∀ k, i4 ≤ k → k < j → pivot < arr.getD k 0) →
    ((qgenLoop arr pivot j r i4).1.length = arr.length ∧
     (qgenLoop arr pivot j r i4).1.Perm arr ∧
     (∀ k, k < i4 ∨ r ≤ k → (qgenLoop arr pivot j r i4).1.getD k 0 = arr.getD k 0) ∧
     (∀ k, i4 ≤ k → k < (qgenLoop arr pivot j r i4).2 →
       (qgenLoop arr pivot j r i4).1.getD k 0 ≤ pivot) ∧
     (∀ k, (qgenLoop arr pivot j r i4).2 ≤ k → k < r →
       pivot < (qgenLoop arr pivot j r i4).1.getD k 0)) := by
  induction arr, pivot, j, r, i4 using qgenLoop.induct with
  | case1 arr pivot j r i4 hj hle ih =>
    intro hij hjr hr hmid
    have hi4len : i4 < arr.length := by omega
    have hjlen : j < arr.length := by omega
    have hswlen : (swapL arr i4 j).length = arr.length := length_swapL arr i4 j
    have hmid2 : ∀ k, i4 + 1 ≤ k → k < j + 1 → pivot < (swapL arr i4 j).getD k 0 := by
      intro k hk1 hk2
      rw [getD_swapL arr hi4len hjlen k]
      rcases eq_or_ne k j with rfl | hkj
      · rw [if_pos rfl]
        exact hmid i4 (le_refl i4) (by omega)
      · rw [if_neg hkj, if_neg (by omega)]
        exact hmid k (by omega) (by omega)
    obtain ⟨ilen, iperm, iframe, ile, igt⟩ :=
      ih (by omega) (by omega) (by omega) hmid2
    rw [qgenLoop, if_pos hj, if_pos hle]
    have hb := qgenLoop_bounds (swapL arr i4 j) pivot (j + 1) r (i4 + 1)
    refine ⟨ilen.trans hswlen, iperm.trans (swapL_perm arr hi4len hjlen), ?_, ?_, igt⟩
    · intro k hk
      have h1 : (qgenLoop (swapL arr i4 j) pivot (j + 1) r (i4 + 1)).1.getD k 0 =
          (swapL arr i4 j).getD k 0 := iframe k (by omega)
      rw [h1, getD_swapL arr hi4len hjlen k, if_neg (by omega), if_neg (by omega)]
    · intro k hk1 hk2
      rcases Nat.eq_or_lt_of_le hk1 with rfl | hlt
      · have h1 : (qgenLoop (swapL arr i4 j) pivot (j + 1) r (i4 + 1)).1.getD i4 0 =
            (swapL arr i4 j).getD i4 0 := iframe i4 (Or.inl (by omega))
        rw [h1, getD_swapL arr hi4len hjlen i4]
        rcases eq_or_ne i4 j with heq | hne
        · rw [if_pos heq, heq]
          exact hle
        · rw [if_neg hne, if_pos rfl]
          exact hle
      · exact ile k (by omega) hk2
  | case2 arr pivot j r i4 hj hle ih =>
    intro hij hjr hr hmid
    have hgt : pivot < arr.getD j 0 := Nat.lt_of_not_le hle
    have hmid2 : ∀ k, i4 ≤ k → k < j + 1 → pivot < arr.getD k 0 := by
      intro k hk1 hk2
      rcases eq_or_ne k j with rfl | hkj
      · exact hgt
      · exact hmid k hk1 (by omega)
    obtain ⟨ilen, iperm, iframe, ile, igt⟩ := ih (by omega) (by omega) hr hmid2
    rw [qgenLoop, if_pos hj, if_neg hle]
    exact ⟨ilen, iperm, iframe, ile, igt⟩
  | case3 arr pivot j r i4 hj =>
    intro hij hjr hr hmid
    rw [qgenLoop, if_neg hj]
    refine ⟨rfl, List.Perm.refl arr, fun k _ => rfl, ?_, ?_⟩
    · intro k hk1 hk2
      have hk2b : k < i4 := hk2
      omega
    · intro k hk1 hk2
      have hk1b : i4 ≤ k := hk1
      exact hmid k hk1b (by omega)

theorem qPart_spec (arr : List Nat) (l r : Nat) (hlr : l < r) (hr : r < arr.length) :
    (qPartB arr l r).length = arr.length ∧
    (qPartB arr l r).Perm arr ∧
    l ≤ (qgenLoop arr (arr.getD r 0) l r l).2 ∧
    (qgenLoop arr (arr.getD r 0) l r l).2 ≤ r ∧
    (∀ k, k < l ∨ r < k → (qPartB arr l r).getD k 0 = arr.getD k 0) ∧
    (qPartB arr l r).getD (qgenLoop arr (arr.getD r 0) l r l).2 0 = arr.getD r 0 ∧
    (∀ k, l ≤ k → k < (qgenLoop arr (arr.getD r 0) l r l).2 →
      (qPartB arr l r).getD k 0 ≤ arr.getD r 0) ∧
    (∀ k, (qgenLoop arr (arr.getD r 0) l r l).2 < k → k ≤ r →
      arr.getD r 0 < (qPartB arr l r).getD k 0) := by
  have hb := qgenLoop_bounds arr (arr.getD r 0) l r l
  obtain ⟨slen, sperm, sframe, sle, sgt⟩ :=
    qgenLoop_spec arr (arr.getD r 0) l r l (le_refl l) (by omega) hr
      (by intro k h1 h2; omega)
  simp only [qPartB]
  set p := (qgenLoop arr (arr.getD r 0) l r l).2 with hp
  set P1 := (qgenLoop arr (arr.getD r 0) l r l).1 with hP1
  have hpl : l ≤ p := hb.1
  have hpr : p ≤ r := by omega
  have hpP : p < P1.length := by omega
  have hrP : r < P1.length := by omega
  refine ⟨?_, ?_, hpl, hpr, ?_, ?_, ?_, ?_⟩
  · rw [length_swapL]
    exact slen
  · exact (swapL_perm P1 hpP hrP).trans sperm
  · intro k hk
    rw [getD_swapL P1 hpP hrP k, if_neg (by omega), if_neg (by omega)]
    exact sframe k (by omega)
  · rw [getD_swapL P1 hpP hrP p]
    rcases eq_or_ne p r with heq | hne
    · rw [if_pos heq, heq]
      exact sframe r (Or.inr (le_refl r))
    · rw [if_neg hne, if_pos rfl]
      exact sframe r (Or.inr (le_refl r))
  · intro k hk1 hk2
    rw [getD_swapL P1 hpP hrP k, if_neg (by omega), if_neg (by omega)]
    exact sle k hk1 hk2
  · intro k hk1 hk2
    rcases eq_or_ne k r with rfl | hne
    · rw [getD_swapL P1 hpP hrP k, if_pos rfl]
      exact sgt p (le_refl p) (by omega)
    · rw [getD_swapL P1 hpP hrP k, if_neg hne, if_neg (by omega)]
      exact sgt k (by omega) (by omega)

theorem quickLoop_cons_pos (arr : List Nat) (l r : Nat) (rest : List (Nat × Nat))
    (h : ¬ r ≤ l) :
    quickLoop arr ((l, r) :: rest) =
      (Step.quickPart arr l r ::
        (quickLoop (qPartB arr l r) (nextWork arr l r rest)).1,
       (quickLoop (qPartB arr l r) (nextWork arr l r rest)).2) := by
  rw [quickLoop, if_neg h]
  rfl

theorem quickLoop_trace (arr : List Nat) (work : List (Nat × Nat)) :
    ∀ d : Ds, d.bars = arr → ∀ K, K ≤ (quickLoop arr work).1.length →
      (runList ((quickLoop arr work).1.take K) d).bars =
        if h : K < (quickLoop arr work).1.length
        then snapOf ((quickLoop arr work).1.get ⟨K, h⟩)
        else (quickLoop arr work).2 := by
  induction arr, work using quickLoop.induct with
  | case1 arr =>
    intro d hd K hK
    simp only [quickLoop] at hK ⊢
    simp only [List.length_nil, Nat.le_zero] at hK
    subst hK
    simp [runList_nil, hd]
  | case2 arr l r rest hrl ih =>
    intro d hd K hK
    have heq : quickLoop arr ((l, r) :: rest) = quickLoop arr rest := by
      rw [quickLoop, if_pos hrl]
    rw [heq] at hK ⊢
    exact ih d hd K hK
  | case3 arr l r rest hrl pivot pr p arr2 work2 ih =>
    intro d hd K hK
    rw [quickLoop_cons_pos arr l r rest hrl] at hK ⊢
    set T := (quickLoop (qPartB arr l r) (nextWork arr l r rest)).1 with hT
    set Q2 := (quickLoop (qPartB arr l r) (nextWork arr l r rest)).2 with hQ2
    have ih2 : ∀ d : Ds, d.bars = qPartB arr l r → ∀ K, K ≤ T.length →
        (runList (T.take K) d).bars =
          if h : K < T.length then snapOf (T.get ⟨K, h⟩) else Q2 := ih
    cases K with
    | zero =>
      rw [List.take_zero, runList_nil, dif_pos (by simp)]
      simp [snapOf, hd]
    | succ K =>
      rw [List.take_succ_cons, runList_cons]
      have hbars : (execStep (Step.quickPart arr l r) d).bars = qPartB arr l r := by
        rw [execStep_quick_bars, hd]
      have hK2 : K ≤ T.length := by
        simp only [List.length_cons] at hK
        omega
      have hres := ih2 (execStep (Step.quickPart arr l r) d) hbars K hK2
      rw [hres]
      by_cases hKT : K < T.length
      · rw [dif_pos hKT, dif_pos (by simp only [List.length_cons]; omega)]
        rw [List.get_cons_succ]
      · rw [dif_neg hKT, dif_neg (by simp only [List.length_cons]; omega)]

theorem sorted_of_getD_mono (b : List Nat)
    (h : ∀ i j, i < j → j < b.length → b.getD i 0 ≤ b.getD j 0) :
    List.Sorted (· ≤ ·) b := by
  show List.Pairwise (· ≤ ·) b
  rw [List.pairwise_iff_getElem]
  intro i j hi hj hij
  have h2 := h i j hij hj
  rwa [List.getD_eq_getElem b 0 hi, List.getD_eq_getElem b 0 hj] at h2

theorem perm_frame_slice (arr2 arr : List Nat) (l r : Nat)
    (hlen : arr2.length = arr.length) (hperm : arr2.Perm arr) (hr : r < arr.length)
    (hlr : l ≤ r)
    (hframe : ∀ k, k < l ∨ r < k → arr2.getD k 0 = arr.getD k 0) :
    ∀ i, l ≤ i → i ≤ r → ∃ k, l ≤ k ∧ k ≤ r ∧ arr2.getD i 0 = arr.getD k 0 := by
  intro i hli hir
  have htake : arr2.take l = arr.take l := by
    apply List.ext_getElem
    · rw [List.length_take, List.length_take, hlen]
    · intro t h1 h2
      rw [List.length_take] at h1
      have ht : t < l := by omega
      have ht2 : t < arr2.length := by omega
      have ht3 : t < arr.length := by omega
      rw [List.getElem_take, List.getElem_take]
      rw [← List.getD_eq_getElem arr2 0 ht2, ← List.getD_eq_getElem arr 0 ht3]
      exact hframe t (Or.inl ht)
  have hdrop : arr2.drop (r + 1) = arr.drop (r + 1) := by
    apply List.ext_getElem
    · rw [List.length_drop, List.length_drop, hlen]
    · intro t h1 h2
      rw [List.length_drop] at h1
      have ht2 : r + 1 + t < arr2.length := by omega
      have ht3 : r + 1 + t < arr.length := by omega
      rw [List.getElem_drop, List.getElem_drop]
      rw [← List.getD_eq_getElem arr2 0 ht2, ← List.getD_eq_getElem arr 0 ht3]
      exact hframe (r + 1 + t) (Or.inr (by omega))
  have hmid : ((arr2.drop l).take (r + 1 - l)).Perm ((arr.drop l).take (r + 1 - l)) := by
    have hd2 : arr2 = arr2.take l ++ ((arr2.drop l).take (r + 1 - l) ++ arr2.drop (r + 1)) := by
      have e1 : (arr2.drop l).drop (r + 1 - l) = arr2.drop (r + 1) := by
        rw [List.drop_drop]
        congr 1
        omega
      rw [← e1, List.take_append_drop, List.take_append_drop]
    have hd1 : arr = arr.take l ++ ((arr.drop l).take (r + 1 - l) ++ arr.drop (r + 1)) := by
      have e1 : (arr.drop l).drop (r + 1 - l) = arr.drop (r + 1) := by
        rw [List.drop_drop]
        congr 1
        omega
      rw [← e1, List.take_append_drop, List.take_append_drop]
    have hp3 : (arr2.take l ++ ((arr2.drop l).take (r + 1 - l) ++ arr2.drop (r + 1))).Perm
        (arr.take l ++ ((arr.drop l).take (r + 1 - l) ++ arr.drop (r + 1))) := by
      rw [← hd2, ← hd1]
      exact hperm
    rw [htake, hdrop] at hp3
    have hp4 := (List.perm_append_left_iff (arr.take l)).1 hp3
    exact (List.perm_append_right_iff (arr.drop (r + 1))).1 hp4
  have hy : arr2.getD i 0 ∈ (arr2.drop l).take (r + 1 - l) := by
    rw [mem_slice_iff]
    exact ⟨i, hli, by omega, by omega, rfl⟩
  have hy2 : arr2.getD i 0 ∈ (arr.drop l).take (r + 1 - l) := hmid.subset hy
  rw [mem_slice_iff] at hy2
  obtain ⟨k, hk1, hk2, hk3, hk4⟩ := hy2
  exact ⟨k, hk1, by omega, hk4.symm⟩

theorem qinv_pop (n : Nat) (arr : List Nat) (l r : Nat) (rest : List (Nat × Nat))
    (hinv : QInv n arr ((l, r) :: rest)) (hrl : r ≤ l) : QInv n arr rest := by
  obtain ⟨hlen, hbound, hdisj, hord⟩ := hinv
  refine ⟨hlen, fun seg hseg => hbound seg (List.mem_cons_of_mem _ hseg),
    (List.pairwise_cons.1 hdisj).2, ?_⟩
  intro i j hij hjn hno
  apply hord i j hij hjn
  rintro ⟨seg, hseg, hsi, hsj⟩
  rcases List.mem_cons.1 hseg with rfl | hseg2
  · simp only [SegIn] at hsi hsj
    omega
  · exact hno ⟨seg, hseg2, hsi, hsj⟩

theorem qinv_step (n : Nat) (arr : List Nat) (l r : Nat) (rest : List (Nat × Nat))
    (hinv : QInv n arr ((l, r) :: rest)) (hlr : l < r) :
    QInv n (qPartB arr l r) (nextWork arr l r rest) := by
  obtain ⟨hlen, hbound, hdisj, hord⟩ := hinv
  have hrn : r < n := hbound (l, r) (List.mem_cons_self _ _)
  have hrlen : r < arr.length := by omega
  obtain ⟨qlen, qperm, hpl, hpr, qframe, qpiv, qle, qgt⟩ := qPart_spec arr l r hlr hrlen
  set p := (qgenLoop arr (arr.getD r 0) l r l).2 with hp
  have hhead : ∀ t ∈ rest, r < t.1 ∨ t.2 < l := (List.pairwise_cons.1 hdisj).1
  have hdisjr : SegDisj rest := (List.pairwise_cons.1 hdisj).2
  have hslice := perm_frame_slice (qPartB arr l r) arr l r qlen qperm hrlen
    (by omega) qframe
  have hmemR : p + 1 < r → (p + 1, r) ∈ nextWork arr l r rest := by
    intro hc
    simp only [nextWork, List.mem_append]
    exact Or.inl (Or.inl (by rw [← hp, if_pos hc]; exact List.mem_singleton_self _))
  have hmemL : l + 1 < p → (l, p - 1) ∈ nextWork arr l r rest := by
    intro hc
    simp only [nextWork, List.mem_append]
    exact Or.inl (Or.inr (by rw [← hp, if_pos hc]; exact List.mem_singleton_self _))
  refine ⟨by omega, ?_, ?_, ?_⟩
  · intro seg hseg
    simp only [nextWork, List.mem_append, ← hp] at hseg
    rcases hseg with (h1 | h1) | h1
    · split_ifs at h1 with hc
      · rcases List.mem_singleton.1 h1 with rfl
        exact hrn
      · simp at h1
    · split_ifs at h1 with hc
      · rcases List.mem_singleton.1 h1 with rfl
        show p - 1 < n
        omega
      · simp at h1
    · exact hbound seg (List.mem_cons_of_mem _ h1)
  · show List.Pairwise _ (nextWork arr l r rest)
    simp only [nextWork, ← hp]
    rw [List.pairwise_append]
    refine ⟨?_, hdisjr, ?_⟩
    · rw [List.pairwise_append]
      refine ⟨?_, ?_, ?_⟩
      · split_ifs
        · exact List.pairwise_singleton _ _
        · exact List.Pairwise.nil
      · split_ifs
        · exact List.pairwise_singleton _ _
        · exact List.Pairwise.nil
      · intro a ha b hb
        split_ifs at ha hb with h1 h2
        · rcases List.mem_singleton.1 ha with rfl
          rcases List.mem_singleton.1 hb with rfl
          show (p + 1, r).2 < (l, p - 1).1 ∨ (l, p - 1).2 < (p + 1, r).1
          right
          show p - 1 < p + 1
          omega
        · simp at hb
        · simp at ha
        · simp at ha
    · intro a ha t ht
      have hht := hhead t ht
      rw [List.mem_append] at ha
      rcases ha with h1 | h1
      · split_ifs at h1 with hc
        · rcases List.mem_singleton.1 h1 with rfl
          show (p + 1, r).2 < t.1 ∨ t.2 < (p + 1, r).1
          show r < t.1 ∨ t.2 < p + 1
          omega
        · simp at h1
      · split_ifs at h1 with hc
        · rcases List.mem_singleton.1 h1 with rfl
          show (l, p - 1).2 < t.1 ∨ t.2 < (l, p - 1).1
          show p - 1 < t.1 ∨ t.2 < l
          omega
        · simp at h1
  · intro i j hij hjn hno
    have hcore : ∀ a b, l ≤ a → a ≤ r → ¬ (l ≤ b ∧ b ≤ r) →
        ∀ seg ∈ (l, r) :: rest, SegIn seg a → SegIn seg b → False := by
      intro a b ha1 ha2 hb seg hseg hsa hsb
      rcases List.mem_cons.1 hseg with rfl | hseg2
      · simp only [SegIn] at hsb
        exact hb ⟨hsb.1, hsb.2⟩
      · have hd := hhead seg hseg2
        simp only [SegIn] at hsa
        omega
    by_cases hiin : l ≤ i ∧ i ≤ r <;> by_cases hjin : l ≤ j ∧ j ≤ r
    · have hip : i ≤ p := by
        by_contra hcon
        push_neg at hcon
        have hpush : p + 1 < r := by omega
        exact hno ⟨(p + 1, r), hmemR hpush,
          ⟨by show p + 1 ≤ i; omega, by show i ≤ r; omega⟩,
          ⟨by show p + 1 ≤ j; omega, by show j ≤ r; omega⟩⟩
      have hjp : p ≤ j := by
        by_contra hcon
        push_neg at hcon
        have hpush : l + 1 < p := by omega
        exact hno ⟨(l, p - 1), hmemL hpush,
          ⟨by show l ≤ i; omega, by show i ≤ p - 1; omega⟩,
          ⟨by show l ≤ j; omega, by show j ≤ p - 1; omega⟩⟩
      rcases Nat.lt_or_ge i p with hilt | hige
      · rcases Nat.lt_or_ge p j with hjlt | hjge
        · exact le_of_lt (lt_of_le_of_lt (qle i hiin.1 hilt) (qgt j hjlt (by omega)))
        · have heq : j = p := by omega
          subst heq
          rw [qpiv]
          exact qle i hiin.1 hilt
      · have heq : i = p := by omega
        subst heq
        rw [qpiv]
        exact le_of_lt (qgt j (by omega) (by omega))
    · push_neg at hjin
      have hrj : r < j := hjin (by omega)
      obtain ⟨k, hk1, hk2, hk3⟩ := hslice i hiin.1 hiin.2
      rw [hk3, qframe j (Or.inr hrj)]
      apply hord k j (by omega) hjn
      rintro ⟨seg, hseg, h1, h2⟩
      exact hcore k j hk1 hk2 (by omega) seg hseg h1 h2
    · push_neg at hiin
      have hil : i < l := by
        by_cases h : l ≤ i
        · have := hiin h
          omega
        · omega
      obtain ⟨k, hk1, hk2, hk3⟩ := hslice j hjin.1 hjin.2
      rw [hk3, qframe i (Or.inl hil)]
      apply hord i k (by omega) (by omega)
      rintro ⟨seg, hseg, h1, h2⟩
      exact hcore k i hk1 hk2 (by omega) seg hseg h2 h1
    · push_neg at hiin hjin
      have hi2 : i < l ∨ r < i := by
        by_cases h : l ≤ i
        · exact Or.inr (hiin h)
        · exact Or.inl (by omega)
      have hj2 : j < l ∨ r < j := by
        by_cases h : l ≤ j
        · exact Or.inr (hjin h)
        · exact Or.inl (by omega)
      rw [qframe i hi2, qframe j hj2]
      apply hord i j hij hjn
      rintro ⟨seg, hseg, h1, h2⟩
      rcases List.mem_cons.1 hseg with rfl | hseg2
      · simp only [SegIn] at h1 h2
        omega
      · refine hno ⟨seg, ?_, h1, h2⟩
        simp only [nextWork, List.mem_append]
        exact Or.inr hseg2

theorem quickLoop_inv (arr : List Nat) (work : List (Nat × Nat)) :
    ∀ n, QInv n arr work →
      (quickLoop arr work).2.Perm arr ∧ List.Sorted (· ≤ ·) (quickLoop arr work).2 := by
  induction arr, work using quickLoop.induct with
  | case1 arr =>
    intro n hinv
    obtain ⟨hlen, hbound, hdisj, hord⟩ := hinv
    have hres : (quickLoop arr ([] : List (Nat × Nat))).2 = arr := by rw [quickLoop]
    rw [hres]
    refine ⟨List.Perm.refl arr, ?_⟩
    apply sorted_of_getD_mono
    intro i j hij hj
    exact hord i j hij (by omega) (by simp)
  | case2 arr l r rest hrl ih =>
    intro n hinv
    have heq : quickLoop arr ((l, r) :: rest) = quickLoop arr rest := by
      rw [quickLoop, if_pos hrl]
    rw [heq]
    exact ih n (qinv_pop n arr l r rest hinv hrl)
  | case3 arr l r rest hrl pivot pr p arr2 work2 ih =>
    intro n hinv
    have ih2 : ∀ n, QInv n (qPartB arr l r) (nextWork arr l r rest) →
        (quickLoop (qPartB arr l r) (nextWork arr l r rest)).2.Perm (qPartB arr l r) ∧
        List.Sorted (· ≤ ·) (quickLoop (qPartB arr l r) (nextWork arr l r rest)).2 := ih
    rw [quickLoop_cons_pos arr l r rest hrl]
    have hlr : l < r := by omega
    obtain ⟨hperm1, hsort1⟩ := ih2 n (qinv_step n arr l r rest hinv hlr)
    have hrlen : r < arr.length := by
      obtain ⟨hlen, hbound, hd2, ho2⟩ := hinv
      have := hbound (l, r) (List.mem_cons_self _ _)
      have h3 : (l, r).2 < n := this
      show r < arr.length
      omega
    have hperm2 : (qPartB arr l r).Perm arr := (qPart_spec arr l r hlr hrlen).2.1
    exact ⟨hperm1.trans hperm2, hsort1⟩

theorem quickLoop_steps_shape (arr : List Nat) (work : List (Nat × Nat)) :
    ∀ n, (∀ seg ∈ work, seg.2 < n) →
      ∀ stp ∈ (quickLoop arr work).1,
        ∃ snap sL sR, stp = Step.quickPart snap sL sR ∧ sL < sR ∧ sR < n := by
  induction arr, work using quickLoop.induct with
  | case1 arr =>
    intro n hbound stp hstp
    rw [quickLoop] at hstp
    simp at hstp
  | case2 arr l r rest hrl ih =>
    intro n hbound stp hstp
    have heq : quickLoop arr ((l, r) :: rest) = quickLoop arr rest := by
      rw [quickLoop, if_pos hrl]
    rw [heq] at hstp
    exact ih n (fun seg hseg => hbound seg (List.mem_cons_of_mem _ hseg)) stp hstp
  | case3 arr l r rest hrl pivot pr p arr2 work2 ih =>
    intro n hbound stp hstp
    have ih2 : ∀ n, (∀ seg ∈ nextWork arr l r rest, seg.2 < n) →
        ∀ stp ∈ (quickLoop (qPartB arr l r) (nextWork arr l r rest)).1,
          ∃ snap sL sR, stp = Step.quickPart snap sL sR ∧ sL < sR ∧ sR < n := ih
    rw [quickLoop_cons_pos arr l r rest hrl] at hstp
    have hrn : (l, r).2 < n := hbound (l, r) (List.mem_cons_self _ _)
    have hrn2 : r < n := hrn
    rcases List.mem_cons.1 hstp with rfl | h2
    · exact ⟨arr, l, r, rfl, by omega, hrn2⟩
    · apply ih2 n ?_ stp h2
      intro seg hseg
      simp only [nextWork, List.mem_append] at hseg
      rcases hseg with (h1 | h1) | h1
      · split_ifs at h1 with hc
        · rcases List.mem_singleton.1 h1 with rfl
          exact hrn2
        · simp at h1
      · split_ifs at h1 with hc
        · rcases List.mem_singleton.1 h1 with rfl
          show (qgenLoop arr (arr.getD r 0) l r l).2 - 1 < n
          have hb := qgenLoop_bounds arr (arr.getD r 0) l r l
          omega
        · simp at h1
      · exact hbound seg (List.mem_cons_of_mem _ h1)

theorem quickPart_permPres (n : Nat) (b0 snap : List Nat) (sL sR : Nat)
    (h1 : sL < sR) (h2 : sR < n) : PermPres n b0 (Step.quickPart snap sL sR) := by
  intro d hdl hdp
  rw [execStep_quick_bars]
  have hspec := qPart_spec d.bars sL sR h1 (by omega)
  rw [hspec.1]
  exact ⟨hdl, hspec.2.1.trans hdp⟩

/-! ## Permutation preservation of individual steps -/

theorem insStepB_perm (b : List Nat) (i : Nat) (hi : i < b.length) :
    (insStepB b i).length = b.length ∧ (insStepB b i).Perm b := by
  obtain ⟨h1, h2, h3, h4⟩ := insLoopB_spec b (b.getD i 0) i hi
  set key := b.getD i 0 with hkey
  set jj2 := (insLoopB b key i).2 with hjj2
  have hform : insStepB b i =
      b.take jj2 ++ [key] ++ (b.drop jj2).take (i - jj2) ++ b.drop (i + 1) := by
    rw [insStepB, ← hkey, ← hjj2, h2]
    rw [List.set_append, if_pos (by
      rw [List.length_append, List.length_take]
      have h9 : jj2 + 1 ≤ b.length := by omega
      simp [List.length_take]
      omega)]
    rw [List.set_append, if_pos (by rw [List.length_take]; omega)]
    have h5 : (b.take (jj2 + 1)).length - 1 = jj2 := by
      rw [List.length_take]
      omega
    have h6 := set_last_eq (b.take (jj2 + 1)) key (by
      intro hc
      have h10 : (b.take (jj2 + 1)).length = 0 := by rw [hc]; rfl
      rw [List.length_take] at h10
      omega)
    rw [h5] at h6
    rw [h6]
    have h7 : (b.take (jj2 + 1)).dropLast = b.take jj2 := by
      rw [List.dropLast_eq_take, List.length_take, List.take_take]
      congr 1
      omega
    rw [h7]
  have hmidlen : ((b.drop jj2).take (i - jj2)).length = i - jj2 := by
    rw [List.length_take, List.length_drop]
    omega
  have htakei : b.take i = b.take jj2 ++ (b.drop jj2).take (i - jj2) := by
    have h8 : i = jj2 + (i - jj2) := by omega
    conv_lhs => rw [h8]
    rw [List.take_add]
  constructor
  · rw [hform, List.length_append, List.length_append, List.length_append,
      List.length_take, hmidlen, List.length_drop]
    simp
    omega
  · rw [hform]
    have hb : b = b.take jj2 ++ (b.drop jj2).take (i - jj2) ++ [key] ++ b.drop (i + 1) := by
      conv_lhs => rw [← List.take_append_drop (i + 1) b]
      rw [take_getD_succ b i hi, ← hkey, htakei]
    conv_rhs => rw [hb]
    simp only [List.append_assoc]
    apply List.Perm.append_left
    rw [← List.append_assoc, ← List.append_assoc]
    exact List.perm_append_comm.append_right _

theorem bubble_permPres (n : Nat) (b0 : List Nat) (j i m : Nat) (h : j + 1 < n) :
    PermPres n b0 (Step.bubble j i m) := by
  intro d hdl hdp
  rw [execStep_bubble_bars]
  simp only [casB]
  split_ifs
  · rw [length_swapL]
    exact ⟨hdl, (swapL_perm d.bars (by omega) (by omega)).trans hdp⟩
  · exact ⟨hdl, hdp⟩

theorem select_permPres (n : Nat) (b0 : List Nat) (i : Nat) (h : i < n) :
    PermPres n b0 (Step.select i n) := by
  intro d hdl hdp
  rw [execStep_select_bars]
  simp only [selStepB]
  obtain ⟨hc, _, _⟩ := selMin_spec d.bars n (i + 1) i
  split_ifs with hne
  · have hmi : selMin d.bars n (i + 1) i < n := by
      rcases hc with heq | ⟨_, hlt⟩
      · omega
      · exact hlt
    rw [length_swapL]
    exact ⟨hdl, (swapL_perm d.bars (by omega) (by omega)).trans hdp⟩
  · exact ⟨hdl, hdp⟩

theorem insert_permPres (n : Nat) (b0 : List Nat) (i : Nat) (h : i < n) :
    PermPres n b0 (Step.insert i) := by
  intro d hdl hdp
  rw [execStep_insert_bars]
  obtain ⟨hl, hp⟩ := insStepB_perm d.bars i (by omega)
  exact ⟨by omega, hp.trans hdp⟩

theorem merge_permPres (n : Nat) (b0 : List Nat) (l m r : Nat)
    (h1 : l ≤ m) (h2 : m < r) (h3 : r < n) : PermPres n b0 (Step.merge l m r) := by
  intro d hdl hdp
  rw [execStep_merge_bars]
  obtain ⟨_, hlen2, hperm2⟩ := mergeStep_spec d.bars l m r h1 h2 (by omega)
  exact ⟨by omega, hperm2.trans hdp⟩

theorem markAll_permPres (n : Nat) (b0 : List Nat) (m : Nat) :
    PermPres n b0 (Step.markAll m) := by
  intro d hdl hdp
  rw [execStep_markAll_bars]
  exact ⟨hdl, hdp⟩

theorem sortAll_permPres (n : Nat) (b0 : List Nat) (m : Nat) :
    PermPres n b0 (Step.sortAll m) := by
  intro d hdl hdp
  rw [execStep_sortAll_bars]
  have hp := stdSort_perm d.bars
  exact ⟨by rw [hp.length_eq]; exact hdl, hp.trans hdp⟩

/-! ## Classification of the steps each builder emits -/

theorem buildBubble_mem (n : Nat) :
    ∀ stp ∈ buildBubble n,
      (∃ j i, stp = Step.bubble j i n ∧ j + 1 < n) ∨ stp = Step.markAll n := by
  intro stp hstp
  rw [buildBubble, List.mem_append] at hstp
  rcases hstp with h | h
  · rw [List.mem_flatMap] at h
    obtain ⟨i, hi, h2⟩ := h
    rw [List.mem_map] at h2
    obtain ⟨j, hj, rfl⟩ := h2
    rw [List.mem_range] at hi hj
    exact Or.inl ⟨j, i, rfl, by omega⟩
  · rcases List.mem_singleton.1 h with rfl
    exact Or.inr rfl

theorem buildSelection_mem (n : Nat) :
    ∀ stp ∈ buildSelection n,
      (∃ i, stp = Step.select i n ∧ i < n) ∨ stp = Step.markAll n := by
  intro stp hstp
  rw [buildSelection, List.mem_append] at hstp
  rcases hstp with h | h
  · rw [List.mem_map] at h
    obtain ⟨i, hi, rfl⟩ := h
    rw [List.mem_range] at hi
    exact Or.inl ⟨i, rfl, by omega⟩
  · rcases List.mem_singleton.1 h with rfl
    exact Or.inr rfl

theorem buildInsertion_mem (n : Nat) :
    ∀ stp ∈ buildInsertion n,
      (∃ i, stp = Step.insert i ∧ i < n) ∨ stp = Step.markAll n := by
  intro stp hstp
  rw [buildInsertion, List.mem_append] at hstp
  rcases hstp with h | h
  · rw [List.mem_map] at h
    obtain ⟨i, hi, rfl⟩ := h
    rw [List.mem_range'] at hi
    exact Or.inl ⟨i, rfl, by omega⟩
  · rcases List.mem_singleton.1 h with rfl
    exact Or.inr rfl

theorem mergeInner_mem_bounds (n w : Nat) (hw : 0 < w) (i : Nat) :
    ∀ stp ∈ mergeInner n w hw i,
      ∃ l m r, stp = Step.merge l m r ∧ l ≤ m ∧ m < r ∧ r < n := by
  induction i using mergeInner.induct n w hw with
  | case1 i hi ih =>
    intro stp hstp
    rw [mergeInner] at hstp
    rw [dif_pos hi] at hstp
    rcases List.mem_append.1 hstp with h | h
    · split_ifs at h with hc
      · simp at h
      · rcases List.mem_singleton.1 h with rfl
        refine ⟨i, min (i + w - 1) (n - 1), min (i + 2 * w - 1) (n - 1), rfl, ?_, ?_, ?_⟩
        · omega
        · omega
        · omega
    · exact ih stp h
  | case2 i hi =>
    intro stp hstp
    rw [mergeInner, dif_neg hi] at hstp
    simp at hstp

theorem mergePasses_mem_bounds (n : Nat) :
    ∀ w hw, ∀ stp ∈ mergePasses n w hw,
      ∃ l m r, stp = Step.merge l m r ∧ l ≤ m ∧ m < r ∧ r < n := by
  intro w hw
  induction w, hw using mergePasses.induct n with
  | case1 w hw hwn ih =>
    intro stp hstp
    rw [mergePasses, dif_pos hwn] at hstp
    rcases List.mem_append.1 hstp with h | h
    · exact mergeInner_mem_bounds n w hw 0 stp h
    · exact ih stp h
  | case2 w hw hwn =>
    intro stp hstp
    rw [mergePasses, dif_neg hwn] at hstp
    simp at hstp

/-! ## End-of-run sortedness for the two sort-at-the-end builders -/

theorem runList_concat_sortAll (steps : List Step) (n : Nat) (d : Ds) :
    List.Sorted (· ≤ ·) (runList (steps ++ [Step.sortAll n]) d).bars := by
  rw [runList_append]
  show List.Sorted (· ≤ ·) (execStep (Step.sortAll n) (runList steps d)).bars
  rw [execStep_sortAll_bars]
  exact stdSort_sorted _

theorem buildQuick_run_sorted (bars : List Nat) (n : Nat) (d : Ds) :
    List.Sorted (· ≤ ·) (runList (buildQuick bars n) d).bars := by
  rw [buildQuick]
  exact runList_concat_sortAll _ n d

theorem buildHeap_steps_eq (bars : List Nat) (n : Nat) :
    (buildHeap bars n).1 =
      (((List.range' 1 (n - 1)).reverse).foldl (heapExtractStep n)
        (((List.range (n / 2)).reverse).foldl (heapBuildStep n)
          (bars, [], 0, 0))).2.1 ++ [Step.sortAll n] := rfl

theorem buildHeap_run_sorted (bars : List Nat) (n : Nat) (d : Ds) :
    List.Sorted (· ≤ ·) (runList (buildHeap bars n).1 d).bars := by
  rw [buildHeap_steps_eq]
  exact runList_concat_sortAll _ n d

/-! ## Heap sort: the generation-time shadow run -/

theorem heapify_unfold (arr : List Nat) (cc ss n i : Nat) :
    heapify arr cc ss n i =
      (fun cc2 lg2 =>
        if lg2 = i then (arr, ([] : List Step), cc2, ss)
        else ((heapify (swapL arr i lg2) cc2 (ss + 1) n lg2).1,
              Step.heapColor i lg2 :: (heapify (swapL arr i lg2) cc2 (ss + 1) n lg2).2.1,
              (heapify (swapL arr i lg2) cc2 (ss + 1) n lg2).2.2))
       (if 2 * i + 2 < n then (if 2 * i + 1 < n then cc + 1 else cc) + 1
        else (if 2 * i + 1 < n then cc + 1 else cc))
       (if 2 * i + 2 < n ∧ arr.getD (2 * i + 2) 0 >
            arr.getD (if 2 * i + 1 < n ∧ arr.getD (2 * i + 1) 0 > arr.getD i 0
                      then 2 * i + 1 else i) 0
        then 2 * i + 2
        else (if 2 * i + 1 < n ∧ arr.getD (2 * i + 1) 0 > arr.getD i 0
              then 2 * i + 1 else i)) := by
  rw [heapify]
  rfl

theorem heapify_perm (arr : List Nat) (cc ss n i : Nat) :
    n ≤ arr.length →
      (heapify arr cc ss n i).1.length = arr.length ∧
        (heapify arr cc ss n i).1.Perm arr := by
  induction arr, cc, ss, n, i using heapify.induct with
  | case1 arr cc ss n i l r lg1 lg2 hlg =>
    intro hn
    simp only [lg2, lg1, r, l, dite_eq_ite] at hlg
    rw [heapify_unfold]
    simp only [if_pos hlg]
    exact ⟨by trivial, List.Perm.refl arr⟩
  | case2 arr cc ss n i l r cc1 lg1 cc2 lg2 hlg ih =>
    intro hn
    have hbound : lg2 < n ∧ i < n := by
      have hlg3 := hlg
      simp only [lg2, lg1, r, l] at hlg3 ⊢
      split_ifs at hlg3 ⊢ <;> omega
    have hlen2 : (swapL arr i lg2).length = arr.length := length_swapL arr i lg2
    obtain ⟨ih1, ih2⟩ := ih (by rw [hlen2]; omega)
    have hperm : (swapL arr i lg2).Perm arr := swapL_perm arr (by omega) (by omega)
    have hlg4 := hlg
    simp only [lg2, lg1, cc2, cc1, r, l, dite_eq_ite] at hlg4
    rw [heapify_unfold]
    simp only [if_neg hlg4]
    exact ⟨ih1.trans hlen2, ih2.trans hperm⟩

theorem heapify_steps_color (arr : List Nat) (cc ss n i : Nat) :
    ∀ stp ∈ (heapify arr cc ss n i).2.1, ∃ ci cl, stp = Step.heapColor ci cl := by
  induction arr, cc, ss, n, i using heapify.induct with
  | case1 arr cc ss n i l r lg1 lg2 hlg =>
    intro stp hstp
    simp only [lg2, lg1, r, l, dite_eq_ite] at hlg
    rw [heapify_unfold] at hstp
    simp only [if_pos hlg] at hstp
    simp at hstp
  | case2 arr cc ss n i l r cc1 lg1 cc2 lg2 hlg ih =>
    intro stp hstp
    have hlg4 := hlg
    simp only [lg2, lg1, cc2, cc1, r, l, dite_eq_ite] at hlg4
    rw [heapify_unfold] at hstp
    simp only [if_neg hlg4] at hstp
    rcases List.mem_cons.1 hstp with rfl | h2
    · exact ⟨_, _, rfl⟩
    · exact ih stp h2

theorem heapify_counters (arr : List Nat) (cc ss n i : Nat) :
    cc ≤ (heapify arr cc ss n i).2.2.1 ∧ ss ≤ (heapify arr cc ss n i).2.2.2 ∧
      (2 * i + 1 < n → cc + 1 ≤ (heapify arr cc ss n i).2.2.1) := by
  induction arr, cc, ss, n, i using heapify.induct with
  | case1 arr cc ss n i l r lg1 lg2 hlg =>
    simp only [lg2, lg1, r, l, dite_eq_ite] at hlg
    rw [heapify_unfold]
    simp only [if_pos hlg]
    refine ⟨?_, le_refl ss, ?_⟩
    · show cc ≤ if 2 * i + 2 < n then (if 2 * i + 1 < n then cc + 1 else cc) + 1
        else (if 2 * i + 1 < n then cc + 1 else cc)
      split_ifs <;> omega
    · intro hl
      show cc + 1 ≤ if 2 * i + 2 < n then (if 2 * i + 1 < n then cc + 1 else cc) + 1
        else (if 2 * i + 1 < n then cc + 1 else cc)
      split_ifs <;> omega
  | case2 arr cc ss n i l r cc1 lg1 cc2 lg2 hlg ih =>
    have hlg4 := hlg
    simp only [lg2, lg1, cc2, cc1, r, l, dite_eq_ite] at hlg4
    rw [heapify_unfold]
    simp only [if_neg hlg4]
    obtain ⟨ihc, ihs, _⟩ := ih
    have hcc : cc ≤ cc2 ∧ (2 * i + 1 < n → cc + 1 ≤ cc2) := by
      simp only [cc2, cc1, r, l]
      split_ifs <;> omega
    have hc2 : cc2 ≤ (heapify (swapL arr i lg2) cc2 (ss + 1) n lg2).2.2.1 := ihc
    have hs2 : ss + 1 ≤ (heapify (swapL arr i lg2) cc2 (ss + 1) n lg2).2.2.2 := ihs
    refine ⟨?_, ?_, ?_⟩
    · show cc ≤ (heapify (swapL arr i lg2) cc2 (ss + 1) n lg2).2.2.1
      omega
    · show ss ≤ (heapify (swapL arr i lg2) cc2 (ss + 1) n lg2).2.2.2
      omega
    · intro hl
      show cc + 1 ≤ (heapify (swapL arr i lg2) cc2 (ss + 1) n lg2).2.2.1
      have := hcc.2 hl
      omega

theorem heapBuild_fold_inv (n : Nat) (b0 : List Nat) (idxs : List Nat) :
    ∀ st : List Nat × List Step × Nat × Nat,
      st.1.Perm b0 → n ≤ st.1.length →
      (∀ stp ∈ st.2.1, HeapStepOk n b0 stp) →
      ((idxs.foldl (heapBuildStep n) st).1.Perm b0 ∧
        n ≤ (idxs.foldl (heapBuildStep n) st).1.length ∧
        ∀ stp ∈ (idxs.foldl (heapBuildStep n) st).2.1, HeapStepOk n b0 stp) := by
  induction idxs with
  | nil =>
    intro st h1 h2 h3
    exact ⟨h1, h2, h3⟩
  | cons i idxs ih =>
    intro st h1 h2 h3
    rw [List.foldl_cons]
    obtain ⟨hl, hp⟩ := heapify_perm st.1 st.2.2.1 st.2.2.2 n i h2
    apply ih
    · exact hp.trans h1
    · show n ≤ (heapify st.1 st.2.2.1 st.2.2.2 n i).1.length
      omega
    · show ∀ stp ∈ st.2.1 ++ (heapify st.1 st.2.2.1 st.2.2.2 n i).2.1 ++
          [Step.heapSnapBuild (heapify st.1 st.2.2.1 st.2.2.2 n i).1],
        HeapStepOk n b0 stp
      intro stp hstp
      rcases List.mem_append.1 hstp with h4 | h4
      · rcases List.mem_append.1 h4 with h5 | h5
        · exact h3 stp h5
        · obtain ⟨ci, cl, rfl⟩ := heapify_steps_color _ _ _ _ _ stp h5
          exact Or.inl ⟨ci, cl, rfl⟩
      · rcases List.mem_singleton.1 h4 with rfl
        exact Or.inr (Or.inl ⟨_, hp.trans h1, Or.inl rfl⟩)

theorem heapExtract_fold_inv (n : Nat) (b0 : List Nat) (idxs : List Nat) :
    ∀ st : List Nat × List Step × Nat × Nat,
      (∀ i ∈ idxs, 0 < i ∧ i < n) →
      st.1.Perm b0 → n ≤ st.1.length →
      (∀ stp ∈ st.2.1, HeapStepOk n b0 stp) →
      ((idxs.foldl (heapExtractStep n) st).1.Perm b0 ∧
        n ≤ (idxs.foldl (heapExtractStep n) st).1.length ∧
        ∀ stp ∈ (idxs.foldl (heapExtractStep n) st).2.1, HeapStepOk n b0 stp) := by
  induction idxs with
  | nil =>
    intro st _ h1 h2 h3
    exact ⟨h1, h2, h3⟩
  | cons i idxs ih =>
    intro st hidx h1 h2 h3
    have hi := hidx i (List.mem_cons_self _ _)
    rw [List.foldl_cons]
    have harr1 : (swapL st.1 0 i).Perm st.1 := swapL_perm st.1 (by omega) (by omega)
    have harr1len : (swapL st.1 0 i).length = st.1.length := length_swapL _ _ _
    obtain ⟨hl, hp⟩ := heapify_perm (swapL st.1 0 i) st.2.2.1 (st.2.2.2 + 1) i 0
      (by omega)
    apply ih _ (fun t ht => hidx t (List.mem_cons_of_mem _ ht))
    · exact (hp.trans harr1).trans h1
    · show n ≤ (heapify (swapL st.1 0 i) st.2.2.1 (st.2.2.2 + 1) i 0).1.length
      omega
    · show ∀ stp ∈ st.2.1 ++ [Step.heapSnapExtract (swapL st.1 0 i) i n] ++
          (heapify (swapL st.1 0 i) st.2.2.1 (st.2.2.2 + 1) i 0).2.1 ++
          [Step.heapSnapRepair (heapify (swapL st.1 0 i) st.2.2.1 (st.2.2.2 + 1) i 0).1 i n],
        HeapStepOk n b0 stp
      intro stp hstp
      rcases List.mem_append.1 hstp with h4 | h4
      · rcases List.mem_append.1 h4 with h5 | h5
        · rcases List.mem_append.1 h5 with h6 | h6
          · exact h3 stp h6
          · rcases List.mem_singleton.1 h6 with rfl
            exact Or.inr (Or.inl ⟨_, harr1.trans h1, Or.inr ⟨i, Or.inl rfl⟩⟩)
        · obtain ⟨ci, cl, rfl⟩ := heapify_steps_color _ _ _ _ _ stp h5
          exact Or.inl ⟨ci, cl, rfl⟩
      · rcases List.mem_singleton.1 h4 with rfl
        exact Or.inr (Or.inl ⟨_, (hp.trans harr1).trans h1, Or.inr ⟨i, Or.inr rfl⟩⟩)

theorem buildHeap_steps_ok (bars : List Nat) (n : Nat) (hn : n ≤ bars.length) :
    ∀ stp ∈ (buildHeap bars n).1, HeapStepOk n bars stp := by
  intro stp hstp
  rw [buildHeap_steps_eq] at hstp
  rcases List.mem_append.1 hstp with h | h
  · have h1 := heapBuild_fold_inv n bars ((List.range (n / 2)).reverse)
      (bars, [], 0, 0) (List.Perm.refl bars) hn (by intro t ht; simp at ht)
    have h2 := heapExtract_fold_inv n bars ((List.range' 1 (n - 1)).reverse)
      (((List.range (n / 2)).reverse).foldl (heapBuildStep n) (bars, [], 0, 0))
      (by
        intro t ht
        rw [List.mem_reverse, List.mem_range'] at ht
        omega)
      h1.1 h1.2.1 h1.2.2
    exact h2.2.2 stp h
  · rcases List.mem_singleton.1 h with rfl
    exact Or.inr (Or.inr rfl)

theorem heapStepOk_permPres (n : Nat) (b0 bars : List Nat) (stp : Step)
    (h : HeapStepOk n bars stp) (hbr : bars.Perm b0) (hb0 : b0.length = n) :
    PermPres n b0 stp := by
  rcases h with ⟨ci, cl, rfl⟩ | ⟨snap, hsp, hshape⟩ | rfl
  · intro d hdl hdp
    rw [execStep_heapColor_bars]
    exact ⟨hdl, hdp⟩
  · have hsnap : snap.Perm b0 := hsp.trans hbr
    have hslen : snap.length = n := by rw [hsnap.length_eq, hb0]
    rcases hshape with rfl | ⟨ii, rfl | rfl⟩
    · intro d hdl hdp
      rw [execStep_heapSnapBuild_bars]
      exact ⟨hslen, hsnap⟩
    · intro d hdl hdp
      rw [execStep_heapSnapExtract_bars]
      exact ⟨hslen, hsnap⟩
    · intro d hdl hdp
      rw [execStep_heapSnapRepair_bars]
      exact ⟨hslen, hsnap⟩
  · exact sortAll_permPres n b0 n

theorem heapBuild_fold_cc_mono (n : Nat) (idxs : List Nat) :
    ∀ st : List Nat × List Step × Nat × Nat,
      st.2.2.1 ≤ (idxs.foldl (heapBuildStep n) st).2.2.1 := by
  induction idxs with
  | nil => intro st; exact le_refl _
  | cons i idxs ih =>
    intro st
    rw [List.foldl_cons]
    refine le_trans ?_ (ih _)
    show st.2.2.1 ≤ (heapify st.1 st.2.2.1 st.2.2.2 n i).2.2.1
    exact (heapify_counters _ _ _ _ _).1

theorem heapExtract_fold_cc_mono (n : Nat) (idxs : List Nat) :
    ∀ st : List Nat × List Step × Nat × Nat,
      st.2.2.1 ≤ (idxs.foldl (heapExtractStep n) st).2.2.1 := by
  induction idxs with
  | nil => intro st; exact le_refl _
  | cons i idxs ih =>
    intro st
    rw [List.foldl_cons]
    refine le_trans ?_ (ih _)
    show st.2.2.1 ≤ (heapify (swapL st.1 0 i) st.2.2.1 (st.2.2.2 + 1) i 0).2.2.1
    exact (heapify_counters _ _ _ _ _).1

theorem buildHeap_comparisons_pos (bars : List Nat) (n : Nat) (hn : 2 ≤ n) :
    1 ≤ (buildHeap bars n).2.1 := by
  obtain ⟨m, hm⟩ : ∃ m, n / 2 = m + 1 := ⟨n / 2 - 1, by omega⟩
  have hsplit : (List.range (n / 2)).reverse = m :: (List.range m).reverse := by
    rw [hm, List.range_succ, List.reverse_append]
    simp
  show 1 ≤ (((List.range' 1 (n - 1)).reverse).foldl (heapExtractStep n)
      (((List.range (n / 2)).reverse).foldl (heapBuildStep n) (bars, [], 0, 0))).2.2.1
  refine le_trans ?_ (heapExtract_fold_cc_mono n _ _)
  rw [hsplit, List.foldl_cons]
  refine le_trans ?_ (heapBuild_fold_cc_mono n _ _)
  show 1 ≤ (heapify bars 0 0 n m).2.2.1
  exact (heapify_counters bars 0 0 n m).2.2 (by omega)

/-! ## Controller invariants -/

theorem tickLoop_idx (steps : List Step) (k : Nat) :
    ∀ d idx, idx ≤ steps.length →
      idx ≤ (tickLoop steps k d idx).2 ∧ (tickLoop steps k d idx).2 ≤ steps.length := by
  induction k with
  | zero =>
    intro d idx h
    exact ⟨le_refl _, h⟩
  | succ k ih =>
    intro d idx h
    rw [tickLoop]
    split_ifs with hlt
    · have h2 := ih (execStep (steps.get ⟨idx, hlt⟩) d) (idx + 1) (by omega)
      omega
    · exact ⟨le_refl _, h⟩

theorem ctrlInv_shuffle (s : SortState) (nb : List Nat) : CtrlInv (shuffleWith s nb) := by
  refine ⟨?_, ?_, ?_, ?_⟩
  · simp [shuffleWith]
  · simp [shuffleWith]
  · simp [shuffleWith]
  · simp [shuffleWith]

theorem buildFor_ne_nil (algo : Algorithm) (bars : List Nat) (n : Nat) :
    (buildFor algo bars n).1 ≠ [] := by
  cases algo
  case BUBBLE => simp [buildFor, buildBubble]
  case SELECTION => simp [buildFor, buildSelection]
  case INSERTION => simp [buildFor, buildInsertion]
  case MERGE => simp [buildFor, buildMerge]
  case QUICK => simp [buildFor, buildQuick]
  case HEAP =>
    show (buildHeap bars n).1 ≠ []
    rw [buildHeap_steps_eq]
    simp

theorem ctrlInv_pressSpace (s : SortState) (nb : List Nat) (h : CtrlInv s) :
    CtrlInv (pressSpace s nb) := by
  obtain ⟨h1, h2, h3, h4⟩ := h
  rw [pressSpace]
  split_ifs with hf hbuild
  · exact ctrlInv_shuffle _ _
  · refine ⟨?_, ?_, ?_, ?_⟩
    · show s.finished = true ↔
        (buildFor s.algo s.ds.bars (barCount s)).1 ≠ [] ∧
          0 = ((buildFor s.algo s.ds.bars (barCount s)).1).length
      constructor
      · intro hc
        exact absurd hc hf
      · rintro ⟨hne, hlen⟩
        exact absurd (List.length_eq_zero.1 hlen.symm) hne
    · intro hc
      exact absurd hc hf
    · show (0 : Nat) ≤ _
      exact Nat.zero_le _
    · intro _
      exact buildFor_ne_nil _ _ _
  · refine ⟨h1, h2, h3, ?_⟩
    intro hr
    have hrf : s.running = false := by
      have hr2 : (!s.running) = true := hr
      cases hsr : s.running
      · rfl
      · rw [hsr] at hr2
        simp at hr2
    push_neg at hbuild
    exact hbuild hrf

theorem ctrlInv_applyTick (s : SortState) (spf : Nat) (h : CtrlInv s) :
    CtrlInv (applyTick spf s) := by
  obtain ⟨h1, h2, h3, h4⟩ := h
  simp only [applyTick]
  split_ifs with hrun hdone
  · obtain ⟨ht1, ht2⟩ := tickLoop_idx s.steps spf s.ds s.stepIdx h3
    refine ⟨?_, ?_, ?_, ?_⟩
    · show (true = true) ↔ s.steps ≠ [] ∧ (tickLoop s.steps spf s.ds s.stepIdx).2 = s.steps.length
      have hne : s.steps ≠ [] := h4 hrun.1
      have hle : s.steps.length ≤ (tickLoop s.steps spf s.ds s.stepIdx).2 := hdone
      constructor
      · intro _
        exact ⟨hne, by omega⟩
      · intro _
        rfl
    · intro _ c hc
      rw [List.mem_map] at hc
      obtain ⟨x, _, rfl⟩ := hc
      rfl
    · show (tickLoop s.steps spf s.ds s.stepIdx).2 ≤ s.steps.length
      exact ht2
    · intro hc
      simp at hc
  · obtain ⟨ht1, ht2⟩ := tickLoop_idx s.steps spf s.ds s.stepIdx h3
    refine ⟨?_, ?_, ?_, ?_⟩
    · show s.finished = true ↔
        s.steps ≠ [] ∧ (tickLoop s.steps spf s.ds s.stepIdx).2 = s.steps.length
      have hlt : (tickLoop s.steps spf s.ds s.stepIdx).2 < s.steps.length := by
        have := hdone
        omega
      constructor
      · intro hc
        exact absurd hc (by rw [hrun.2]; simp)
      · rintro ⟨_, heq⟩
        omega
    · intro hc
      exact absurd hc (by rw [hrun.2]; simp)
    · exact ht2
    · intro _
      exact h4 hrun.1
  · exact ⟨h1, h2, h3, h4⟩

theorem mainStep_ctrlInv (s t : SortState) (hst : MainStep s t) (h : CtrlInv s) :
    CtrlInv t := by
  cases hst with
  | algoKey a nb hfp => exact ctrlInv_shuffle _ _
  | shuffleKey nb hfp => exact ctrlInv_shuffle _ _
  | spaceKey nb hfp => exact ctrlInv_pressSpace s nb h
  | speedUpKey => exact h
  | speedDownKey => exact h
  | sizeUpKey nb hg hfp => exact ctrlInv_shuffle _ _
  | sizeDownKey nb hg hfp => exact ctrlInv_shuffle _ _
  | frame spf => exact ctrlInv_applyTick s spf h

theorem reachable_ctrlInv (s : SortState) (h : Reachable s) : CtrlInv s := by
  obtain ⟨nb0, hfp, hchain⟩ := h
  induction hchain with
  | refl => exact ctrlInv_shuffle _ _
  | tail hab hbc ih => exact mainStep_ctrlInv _ _ hbc ih

/-! ## The steps-per-frame function -/

theorem stepsPerTick_one : stepsPerTick 1 = 1 := by
  rw [stepsPerTick]
  have he : (((1 : Nat) : ℝ) - 1) / 3 = 0 := by norm_num
  rw [he, Real.rpow_zero, round_one]

theorem stepsPerTick_ten : stepsPerTick 10 = 22 := by
  rw [stepsPerTick]
  have he : (((10 : Nat) : ℝ) - 1) / 3 = ((3 : Nat) : ℝ) := by norm_num
  rw [he, Real.rpow_natCast]
  have h4 : (2.8 : ℝ) ^ (3 : ℕ) = 21.952 := by norm_num
  rw [h4, round_eq]
  have h5 : (21.952 : ℝ) + 1 / 2 = 22.452 := by norm_num
  rw [h5]
  rw [Int.floor_eq_iff]
  constructor
  · norm_num
  · norm_num

theorem stepsPerTick_mono (s t : Nat) (h : s ≤ t) :
    stepsPerTick s ≤ stepsPerTick t := by
  rw [stepsPerTick, stepsPerTick, round_eq, round_eq]
  apply Int.floor_mono
  have hexp : (((s : Nat) : ℝ) - 1) / 3 ≤ (((t : Nat) : ℝ) - 1) / 3 := by
    apply (div_le_div_iff_of_pos_right (by norm_num : (0 : ℝ) < 3)).2
    have hc : ((s : Nat) : ℝ) ≤ ((t : Nat) : ℝ) := Nat.cast_le.2 h
    linarith
  have hb : (1 : ℝ) ≤ 2.8 := by norm_num
  have h2 := Real.rpow_le_rpow_of_exponent_le hb hexp
  linarith

/-! ## A small concrete heap generation -/

theorem heapify12 : heapify [1, 2] 0 0 2 0 = ([2, 1], [Step.heapColor 0 1], 1, 1) := by
  rw [heapify_unfold]
  norm_num [List.getD_cons_succ, List.getD_cons_zero]
  rw [heapify_unfold]
  norm_num [List.getD_cons_succ, List.getD_cons_zero, swapL]

theorem heapify12b : heapify [1, 2] 1 2 1 0 = ([1, 2], [], 1, 2) := by
  rw [heapify_unfold]
  norm_num

theorem buildHeap12 : (buildHeap [1, 2] 2).1 =
    [Step.heapColor 0 1, Step.heapSnapBuild [2, 1], Step.heapSnapExtract [1, 2] 1 2,
     Step.heapSnapRepair [1, 2] 1 2, Step.sortAll 2] := by
  rw [buildHeap_steps_eq]
  show (([1] : List Nat).foldl (heapExtractStep 2)
      (([0] : List Nat).foldl (heapBuildStep 2) ([1, 2], [], 0, 0))).2.1 ++
      [Step.sortAll 2] = _
  rw [List.foldl_cons, List.foldl_nil, List.foldl_cons, List.foldl_nil]
  show (heapExtractStep 2
      ((heapify [1, 2] 0 0 2 0).1,
       [] ++ (heapify [1, 2] 0 0 2 0).2.1 ++
         [Step.heapSnapBuild (heapify [1, 2] 0 0 2 0).1],
       (heapify [1, 2] 0 0 2 0).2.2) 1).2.1 ++ [Step.sortAll 2] = _
  rw [heapify12]
  show ([Step.heapColor 0 1, Step.heapSnapBuild [2, 1]] ++
      [Step.heapSnapExtract [1, 2] 1 2] ++ (heapify [1, 2] 1 2 1 0).2.1 ++
      [Step.heapSnapRepair (heapify [1, 2] 1 2 1 0).1 1 2]) ++ [Step.sortAll 2] = _
  rw [heapify12b]
  rfl

/-! ## Per-algorithm facts assembled for the whole dispatcher -/

theorem size_pos (k : Nat) (h : k < SIZE_COUNT) : 0 < SIZE_OPTIONS.getD k 0 := by
  have h6 : k < 6 := h
  interval_cases k <;> decide

theorem buildFor_run_sorted (algo : Algorithm) (bars : List Nat) (n : Nat) (d : Ds)
    (hlen : d.bars.length = n) :
    List.Sorted (· ≤ ·) (runList (buildFor algo bars n).1 d).bars := by
  cases algo
  case BUBBLE => exact (bubble_run_sorted n d hlen).1
  case SELECTION => exact (selection_run_sorted n d hlen).1
  case INSERTION => exact (insertion_run_sorted n d hlen).1
  case MERGE => exact (merge_run_sorted n d hlen).1
  case QUICK => exact buildQuick_run_sorted bars n d
  case HEAP => exact buildHeap_run_sorted bars n d

theorem buildFor_permPres (algo : Algorithm) (bars : List Nat) (n : Nat)
    (hn : 0 < n) (hblen : bars.length = n)
    (hperm : bars.Perm (List.range' 1 n)) :
    ∀ stp ∈ (buildFor algo bars n).1, PermPres n (List.range' 1 n) stp := by
  intro stp hstp
  cases algo
  case BUBBLE =>
    rcases buildBubble_mem n stp hstp with ⟨j, i, rfl, hj⟩ | rfl
    · exact bubble_permPres n _ j i n hj
    · exact markAll_permPres n _ n
  case SELECTION =>
    rcases buildSelection_mem n stp hstp with ⟨i, rfl, hi⟩ | rfl
    · exact select_permPres n _ i hi
    · exact markAll_permPres n _ n
  case INSERTION =>
    rcases buildInsertion_mem n stp hstp with ⟨i, rfl, hi⟩ | rfl
    · exact insert_permPres n _ i hi
    · exact markAll_permPres n _ n
  case MERGE =>
    have hstp2 : stp ∈ mergePasses n 1 (by omega) ++ [Step.markAll n] := hstp
    rcases List.mem_append.1 hstp2 with h | h
    · obtain ⟨l, m, r, rfl, hlm, hmr, hrn⟩ := mergePasses_mem_bounds n 1 (by omega) stp h
      exact merge_permPres n _ l m r hlm hmr hrn
    · rcases List.mem_singleton.1 h with rfl
      exact markAll_permPres n _ n
  case QUICK =>
    have hstp2 : stp ∈ (quickLoop bars [(0, n - 1)]).1 ++ [Step.sortAll n] := hstp
    rcases List.mem_append.1 hstp2 with h | h
    · obtain ⟨snap, sL, sR, rfl, hlr, hrn⟩ :=
        quickLoop_steps_shape bars [(0, n - 1)] n
          (by
            intro seg hseg
            rcases List.mem_singleton.1 hseg with rfl
            show n - 1 < n
            omega)
          stp h
      exact quickPart_permPres n _ snap sL sR hlr hrn
    · rcases List.mem_singleton.1 h with rfl
      exact sortAll_permPres n _ n
  case HEAP =>
    exact heapStepOk_permPres n _ bars stp
      (buildHeap_steps_ok bars n (by omega) stp hstp) hperm
      (by rw [List.length_range'])

theorem buildSteps_comparisons (s : SortState) :
    (buildSteps s).ds.comparisons = (buildFor s.algo s.ds.bars (barCount s)).2.1 := rfl

theorem buildFor_heap_eq (bars : List Nat) (n : Nat) :
    buildFor Algorithm.HEAP bars n = buildHeap bars n := rfl

/-! ## The claims -/

/-- Claim C1: for every one of the six algorithms and every supported array
size, executing every step of the generated sequence in order, starting from
any permutation of `1..n`, leaves the live values array sorted ascending. -/
theorem claim1 (algo : Algorithm) (sizeIdx : Nat) (_hsz : sizeIdx < SIZE_COUNT)
    (bars : List Nat)
    (hperm : bars.Perm (List.range' 1 (SIZE_OPTIONS.getD sizeIdx 0)))
    (d : Ds) (hd : d.bars = bars) :
    List.Sorted (· ≤ ·)
      (runList (buildFor algo bars (SIZE_OPTIONS.getD sizeIdx 0)).1 d).bars := by
  have hlen : d.bars.length = SIZE_OPTIONS.getD sizeIdx 0 := by
    rw [hd, hperm.length_eq, List.length_range']
  exact buildFor_run_sorted algo bars _ d hlen

theorem claim1_witness :
    List.Sorted (· ≤ ·)
      (runList (buildFor Algorithm.BUBBLE (List.range' 1 100)
        (SIZE_OPTIONS.getD 3 0)).1
        ⟨List.range' 1 100, List.replicate 100 0, 0, 0⟩).bars :=
  claim1 Algorithm.BUBBLE 3 (by decide) (List.range' 1 100) (List.Perm.refl _)
    ⟨List.range' 1 100, List.replicate 100 0, 0, 0⟩ rfl

/-- Claim C2 (amended): generation leaves both counters at zero for the five
algorithms whose step list is built without running the sort, while heap-sort
generation pre-runs the trace and leaves the counters it accumulated; during
execution the counters never decrease. -/
theorem claim2 :
    (∀ s : SortState, s.algo ≠ Algorithm.HEAP →
      (buildSteps s).ds.comparisons = 0 ∧ (buildSteps s).ds.swaps = 0) ∧
    (∀ (stp : Step) (d : Ds), d.comparisons ≤ (execStep stp d).comparisons ∧
      d.swaps ≤ (execStep stp d).swaps) := by
  constructor
  · intro s halgo
    have he1 : (buildSteps s).ds.comparisons =
        (buildFor s.algo s.ds.bars (barCount s)).2.1 := rfl
    have he2 : (buildSteps s).ds.swaps =
        (buildFor s.algo s.ds.bars (barCount s)).2.2 := rfl
    rw [he1, he2]
    cases h2 : s.algo
    case BUBBLE => exact ⟨rfl, rfl⟩
    case SELECTION => exact ⟨rfl, rfl⟩
    case INSERTION => exact ⟨rfl, rfl⟩
    case MERGE => exact ⟨rfl, rfl⟩
    case QUICK => exact ⟨rfl, rfl⟩
    case HEAP => exact absurd h2 halgo
  · intro stp d
    exact execStep_counters_mono stp d

theorem claim2_witness :
    (buildSteps (initState (List.range' 1 100))).ds.comparisons = 0 ∧
      (buildSteps (initState (List.range' 1 100))).ds.swaps = 0 :=
  claim2.1 (initState (List.range' 1 100)) (by decide)

/-- Claim C2, refuted as stated: for heap sort the generation itself runs the
sort and increments the counters, so they are not zero right after
`buildSteps`. -/
theorem claim2_counterexample :
    ¬ ∀ s : SortState,
        (buildSteps s).ds.comparisons = 0 ∧ (buildSteps s).ds.swaps = 0 := by
  intro hcon
  set S : SortState :=
    { ds := { bars := List.range' 1 100
              colorMap := List.replicate 100 0
              comparisons := 0
              swaps := 0 }
      algo := Algorithm.HEAP
      running := false
      finished := false
      speed := 5
      sizeIdx := 3
      steps := []
      stepIdx := 0 } with hSdef
  have h := (hcon S).1
  rw [buildSteps_comparisons] at h
  have e2 : S.algo = Algorithm.HEAP := rfl
  have e3 : S.ds.bars = List.range' 1 100 := rfl
  have e4 : barCount S = 100 := rfl
  rw [e2, e3, e4, buildFor_heap_eq] at h
  have h3 := buildHeap_comparisons_pos (List.range' 1 100) 100 (by omega)
  omega

/-- Claim C3 (amended): on the size-4 array `[3,1,4,2]` the bubble sequence
sorts the values and ends with 6 comparisons and 3 swaps (not 2). -/
theorem claim3 :
    (runList (buildBubble 4) ⟨[3, 1, 4, 2], List.replicate 4 0, 0, 0⟩).bars =
      [1, 2, 3, 4] ∧
    (runList (buildBubble 4) ⟨[3, 1, 4, 2], List.replicate 4 0, 0, 0⟩).comparisons = 6 ∧
    (runList (buildBubble 4) ⟨[3, 1, 4, 2], List.replicate 4 0, 0, 0⟩).swaps = 3 := by
  decide

/-- Claim C3, refuted as stated: the run performs 3 swaps, not 2. -/
theorem claim3_counterexample :
    ¬ (runList (buildBubble 4) ⟨[3, 1, 4, 2], List.replicate 4 0, 0, 0⟩).swaps = 2 := by
  decide

/-- Claim C4 (amended): `stepsPerTick` is 1 at speed 1, 22 (not roughly 77)
at speed 10, and non-decreasing in the speed level. -/
theorem claim4 :
    stepsPerTick 1 = 1 ∧ stepsPerTick 10 = 22 ∧
      ∀ s t : Nat, s ≤ t → stepsPerTick s ≤ stepsPerTick t :=
  ⟨stepsPerTick_one, stepsPerTick_ten, stepsPerTick_mono⟩

theorem claim4_witness : (3 : Nat) ≤ 7 ∧ stepsPerTick 3 ≤ stepsPerTick 7 :=
  ⟨by decide, claim4.2.2 3 7 (by decide)⟩

/-- Claim C4, refuted as stated: at speed 10 the function rounds
`2.8 ^ 3 = 21.952` to 22, nowhere near 77. -/
theorem claim4_counterexample : ¬ stepsPerTick 10 = 77 := by
  rw [stepsPerTick_ten]
  decide

/-- Claim C5 (amended): every step the heap generator emits either carries a
snapshot of the shadow array which its execution installs verbatim as the
live values, or is an annotation-only color step that leaves the live values
untouched, or is the final sort-and-mark step. -/
theorem claim5 (bars : List Nat) (n : Nat) (hn : n ≤ bars.length) :
    ∀ stp ∈ (buildHeap bars n).1,
      (∃ ci cl, stp = Step.heapColor ci cl ∧
        ∀ d : Ds, (execStep stp d).bars = d.bars) ∨
      (∃ snap, (∀ d : Ds, (execStep stp d).bars = snap) ∧
        (stp = Step.heapSnapBuild snap ∨
         ∃ ii, stp = Step.heapSnapExtract snap ii n ∨
           stp = Step.heapSnapRepair snap ii n)) ∨
      (stp = Step.sortAll n ∧ ∀ d : Ds, (execStep stp d).bars = stdSort d.bars) := by
  intro stp hstp
  rcases buildHeap_steps_ok bars n hn stp hstp with
    ⟨ci, cl, rfl⟩ | ⟨snap, hsp, hshape⟩ | rfl
  · exact Or.inl ⟨ci, cl, rfl, fun d => execStep_heapColor_bars ci cl d⟩
  · rcases hshape with rfl | ⟨ii, rfl | rfl⟩
    · exact Or.inr (Or.inl ⟨snap, fun d => execStep_heapSnapBuild_bars snap d,
        Or.inl rfl⟩)
    · exact Or.inr (Or.inl ⟨snap, fun d => execStep_heapSnapExtract_bars snap ii n d,
        Or.inr ⟨ii, Or.inl rfl⟩⟩)
    · exact Or.inr (Or.inl ⟨snap, fun d => execStep_heapSnapRepair_bars snap ii n d,
        Or.inr ⟨ii, Or.inr rfl⟩⟩)
  · exact Or.inr (Or.inr ⟨rfl, fun d => execStep_sortAll_bars n d⟩)

theorem claim5_witness :
    (∃ ci cl, Step.heapColor 0 1 = Step.heapColor ci cl ∧
      ∀ d : Ds, (execStep (Step.heapColor 0 1) d).bars = d.bars) ∨
    (∃ snap, (∀ d : Ds, (execStep (Step.heapColor 0 1) d).bars = snap) ∧
      (Step.heapColor 0 1 = Step.heapSnapBuild snap ∨
       ∃ ii, Step.heapColor 0 1 = Step.heapSnapExtract snap ii 2 ∨
         Step.heapColor 0 1 = Step.heapSnapRepair snap ii 2)) ∨
    (Step.heapColor 0 1 = Step.sortAll 2 ∧
      ∀ d : Ds, (execStep (Step.heapColor 0 1) d).bars = stdSort d.bars) :=
  claim5 [1, 2] 2 (by decide) (Step.heapColor 0 1) (by rw [buildHeap12]; simp)

/-- Claim C5, refuted as stated: the color steps the heap generator pushes for
each sift-down swap do not overwrite the live values at all, so their effect
is not a fixed snapshot. -/
theorem claim5_counterexample :
    ¬ ∀ (bars : List Nat) (n : Nat), ∀ stp ∈ (buildHeap bars n).1,
        ∃ snap, ∀ d : Ds, (execStep stp d).bars = snap := by
  intro hcon
  have hmem : Step.heapColor 0 1 ∈ (buildHeap [1, 2] 2).1 := by
    rw [buildHeap12]
    simp
  obtain ⟨snap, hsnap⟩ := hcon [1, 2] 2 (Step.heapColor 0 1) hmem
  have h1 := hsnap ⟨[5], [], 0, 0⟩
  have h2 := hsnap ⟨[6], [], 0, 0⟩
  rw [execStep_heapColor_bars] at h1 h2
  have h1b : ([5] : List Nat) = snap := h1
  have h2b : ([6] : List Nat) = snap := h2
  rw [← h1b] at h2b
  simp at h2b

/-- Claim C6: for the quicksort generator run against a fixed starting
permutation, for every `K` up to the sequence length, the live values after
the first `K` steps equal the shadow array at the corresponding point of the
generation-time trace. -/
theorem claim6 (n : Nat) (hn : 0 < n) (bars : List Nat)
    (hperm : bars.Perm (List.range' 1 n)) (d : Ds) (hd : d.bars = bars)
    (K : Nat) (hK : K ≤ (buildQuick bars n).length) :
    (runList ((buildQuick bars n).take K) d).bars = quickTraceAt bars n K := by
  have hlen : bars.length = n := by
    rw [hperm.length_eq, List.length_range']
  have hqinv : QInv n bars [(0, n - 1)] := by
    refine ⟨hlen, ?_, ?_, ?_⟩
    · intro seg hseg
      rcases List.mem_singleton.1 hseg with rfl
      show n - 1 < n
      omega
    · exact List.pairwise_singleton _ _
    · intro i j hij hjn hno
      exact (hno ⟨(0, n - 1), List.mem_singleton_self _,
        ⟨Nat.zero_le i, by show i ≤ n - 1; omega⟩,
        ⟨Nat.zero_le j, by show j ≤ n - 1; omega⟩⟩).elim
  obtain ⟨hfp, hfs⟩ := quickLoop_inv bars [(0, n - 1)] n hqinv
  rw [buildQuick] at hK ⊢
  rw [List.length_append] at hK
  by_cases hKQ : K ≤ (quickLoop bars [(0, n - 1)]).1.length
  · rw [List.take_append_of_le_length hKQ]
    have ht := quickLoop_trace bars [(0, n - 1)] d hd K hKQ
    rw [ht]
    rfl
  · have hKeq : K = (quickLoop bars [(0, n - 1)]).1.length + 1 := by
      simp only [List.length_singleton] at hK
      omega
    rw [List.take_of_length_le (by
      rw [List.length_append, List.length_singleton]
      omega)]
    rw [runList_append]
    have hb : (runList [Step.sortAll n]
        (runList (quickLoop bars [(0, n - 1)]).1 d)).bars =
        stdSort (runList (quickLoop bars [(0, n - 1)]).1 d).bars :=
      execStep_sortAll_bars n _
    rw [hb]
    have ht := quickLoop_trace bars [(0, n - 1)] d hd
      (quickLoop bars [(0, n - 1)]).1.length (le_refl _)
    rw [List.take_length, dif_neg (lt_irrefl _)] at ht
    rw [ht]
    have hstd : stdSort (quickLoop bars [(0, n - 1)]).2 =
        (quickLoop bars [(0, n - 1)]).2 :=
      List.eq_of_perm_of_sorted (stdSort_perm _) (stdSort_sorted _) hfs
    rw [hstd]
    show _ = quickTraceAt bars n K
    rw [quickTraceAt]
    rw [dif_neg (by omega)]

theorem claim6_witness :
    (0 : Nat) < 4 ∧ ([3, 1, 4, 2] : List Nat).Perm (List.range' 1 4) ∧
      (runList ((buildQuick [3, 1, 4, 2] 4).take 0)
        ⟨[3, 1, 4, 2], List.replicate 4 0, 0, 0⟩).bars =
        quickTraceAt [3, 1, 4, 2] 4 0 :=
  ⟨by decide, by decide,
   claim6 4 (by decide) [3, 1, 4, 2] (by decide)
     ⟨[3, 1, 4, 2], List.replicate 4 0, 0, 0⟩ rfl 0 (Nat.zero_le _)⟩

/-- Claim C7: for every algorithm and size, at every step boundary the live
values array is a permutation of `1..n`, and after the last step it is sorted
ascending. -/
theorem claim7 (algo : Algorithm) (sizeIdx : Nat) (hsz : sizeIdx < SIZE_COUNT)
    (bars : List Nat)
    (hperm : bars.Perm (List.range' 1 (SIZE_OPTIONS.getD sizeIdx 0)))
    (d : Ds) (hd : d.bars = bars) :
    (∀ K, (runList ((buildFor algo bars (SIZE_OPTIONS.getD sizeIdx 0)).1.take K)
        d).bars.Perm (List.range' 1 (SIZE_OPTIONS.getD sizeIdx 0))) ∧
    List.Sorted (· ≤ ·)
      (runList (buildFor algo bars (SIZE_OPTIONS.getD sizeIdx 0)).1 d).bars := by
  have hn : 0 < SIZE_OPTIONS.getD sizeIdx 0 := size_pos sizeIdx hsz
  have hblen : bars.length = SIZE_OPTIONS.getD sizeIdx 0 := by
    rw [hperm.length_eq, List.length_range']
  have hdlen : d.bars.length = SIZE_OPTIONS.getD sizeIdx 0 := by rw [hd, hblen]
  constructor
  · intro K
    exact (runPrefix_perm _ _ _
      (buildFor_permPres algo bars _ hn hblen hperm) d hdlen
      (by rw [hd]; exact hperm) K).2
  · exact buildFor_run_sorted algo bars _ d hdlen

theorem claim7_witness :
    (∀ K, (runList ((buildFor Algorithm.BUBBLE (List.range' 1 100)
        (SIZE_OPTIONS.getD 3 0)).1.take K)
        ⟨List.range' 1 100, List.replicate 100 0, 0, 0⟩).bars.Perm
        (List.range' 1 (SIZE_OPTIONS.getD 3 0))) ∧
    List.Sorted (· ≤ ·)
      (runList (buildFor Algorithm.BUBBLE (List.range' 1 100)
        (SIZE_OPTIONS.getD 3 0)).1
        ⟨List.range' 1 100, List.replicate 100 0, 0, 0⟩).bars :=
  claim7 Algorithm.BUBBLE 3 (by decide) (List.range' 1 100) (List.Perm.refl _)
    ⟨List.range' 1 100, List.replicate 100 0, 0, 0⟩ rfl

/-- Claim C8 (amended): in every reachable controller state, `finished` holds
exactly when a non-empty sequence has been exhausted (so not in the idle
states, whose empty sequence makes the cursor trivially equal the length),
and a finished state has every annotation forced to Sorted. -/
theorem claim8 (s : SortState) (h : Reachable s) :
    (s.finished = true ↔ s.steps ≠ [] ∧ s.stepIdx = s.steps.length) ∧
    (s.finished = true → ∀ c ∈ s.ds.colorMap, c = 3) := by
  have hi := reachable_ctrlInv s h
  exact ⟨hi.1, hi.2.1⟩

theorem claim8_witness :
    ((initState (List.range' 1 100)).finished = true ↔
      (initState (List.range' 1 100)).steps ≠ [] ∧
        (initState (List.range' 1 100)).stepIdx =
          (initState (List.range' 1 100)).steps.length) ∧
    ((initState (List.range' 1 100)).finished = true →
      ∀ c ∈ (initState (List.range' 1 100)).ds.colorMap, c = 3) :=
  claim8 (initState (List.range' 1 100))
    ⟨List.range' 1 100, List.Perm.refl _, Relation.ReflTransGen.refl⟩

/-- Claim C8, refuted as stated: right after a shuffle the step list is empty,
so the cursor (0) equals the sequence length (0) while `finished` is false;
the cursor-at-end condition alone does not characterize `finished`. -/
theorem claim8_counterexample :
    ¬ ∀ s : SortState, Reachable s →
        (s.finished = true ↔ s.stepIdx = s.steps.length) := by
  intro hcon
  have h := (hcon (initState (List.range' 1 100))
    ⟨List.range' 1 100, List.Perm.refl _, Relation.ReflTransGen.refl⟩).2 rfl
  exact absurd h (by decide)

/-- Claim C9: once `finished` is set, a tick is a no-op (no step executes and
the state, in particular values, counters, cursor and annotations, is
unchanged), and every annotation stays Sorted. -/
theorem claim9 (s : SortState) (hreach : Reachable s) (hfin : s.finished = true) :
    (∀ spf, applyTick spf s = s) ∧ ∀ c ∈ s.ds.colorMap, c = 3 := by
  constructor
  · intro spf
    rw [applyTick, if_neg (by simp [hfin])]
  · exact (reachable_ctrlInv s hreach).2.1 hfin

set_option maxRecDepth 100000 in
theorem claim9_witness :
    (∀ spf, applyTick spf demo5 = demo5) ∧ ∀ c ∈ demo5.ds.colorMap, c = 3 := by
  have hchain : Relation.ReflTransGen MainStep demo0 demo5 := by
    have c1 : MainStep demo0 demo1 :=
      MainStep.sizeDownKey demo0 (List.range' 1 75) (by constructor <;> decide)
        (List.Perm.refl _)
    have c2 : MainStep demo1 demo2 :=
      MainStep.sizeDownKey demo1 (List.range' 1 50) (by constructor <;> decide)
        (List.Perm.refl _)
    have c3 : MainStep demo2 demo3 :=
      MainStep.sizeDownKey demo2 (List.range' 1 25) (by constructor <;> decide)
        (List.Perm.refl _)
    have c4 : MainStep demo3 demo4 :=
      MainStep.spaceKey demo3 (List.range' 1 25) (List.Perm.refl _)
    have c5 : MainStep demo4 demo5 := MainStep.frame demo4 301
    exact Relation.ReflTransGen.tail
      (Relation.ReflTransGen.tail
        (Relation.ReflTransGen.tail
          (Relation.ReflTransGen.tail
            (Relation.ReflTransGen.tail Relation.ReflTransGen.refl c1) c2) c3) c4) c5
  exact claim9 demo5 ⟨List.range' 1 100, List.Perm.refl _, hchain⟩ (by decide)

/-- Claim C10: the final step of both the quicksort and the heapsort
sequences applies a full `std::sort` to the live values (besides marking all
annotations Sorted), so completing those sequences sorts the array whatever
the earlier steps did. -/
theorem claim10 (bars : List Nat) (n : Nat) (d : Ds) :
    (buildQuick bars n).getLast? = some (Step.sortAll n) ∧
    (buildHeap bars n).1.getLast? = some (Step.sortAll n) ∧
    (∀ d2 : Ds, (execStep (Step.sortAll n) d2).bars = stdSort d2.bars) ∧
    List.Sorted (· ≤ ·) (runList (buildQuick bars n) d).bars ∧
    List.Sorted (· ≤ ·) (runList (buildHeap bars n).1 d).bars := by
  refine ⟨?_, ?_, fun d2 => execStep_sortAll_bars n d2,
    buildQuick_run_sorted bars n d, buildHeap_run_sorted bars n d⟩
  · rw [buildQuick]
    exact List.getLast?_concat _
  · rw [buildHeap_steps_eq]
    exact List.getLast?_concat _

end SortViz
